import Mathlib

/-!
Verification of the thread-synchronization primitives library
(TAS/TTAS/MCS spin locks and a sense-reversing barrier).

The C++ sources are shallowly embedded: every atomic operation of the
source becomes one step of an explicit state machine, machine integers
become `Int`/`Nat`, and thread interleavings become an inductively
defined reachability relation in which any thread may take the next
step.  Memory-ordering annotations of the source collapse to the
sequentially consistent interleaving semantics of the step relations.

The file is laid out as definitions first, then theorems.
-/

set_option autoImplicit false

/-! ## Definitions -/

/-! ### Exponential backoff

`SenseReversingBarrier::backoff` (src/exercise2/my_barrier.cpp):
`delay = std::min(delay * 2, 1000)` after sleeping `delay` units.

`TTASLockWithBackoff::acquire` (src/exercise1/performance.cpp):
`INITIAL_DELAY = 1`, `MAX_DELAY = 1024`, and after each failed exchange
`if (delay < MAX_DELAY) delay *= 2;`.
-/

/-- Update of the barrier backoff delay, from `SenseReversingBarrier::backoff`. -/
def backoffNext (delay : Nat) : Nat := min (delay * 2) 1000

/-- Barrier delay value after `k` polls, starting from `int delay = 1`. -/
def barrierDelaySeq : Nat → Nat
  | 0 => 1
  | k + 1 => backoffNext (barrierDelaySeq k)

/-- `INITIAL_DELAY` of src/exercise1/performance.cpp. -/
def INITIAL_DELAY : Nat := 1

/-- `MAX_DELAY` of src/exercise1/performance.cpp. -/
def MAX_DELAY : Nat := 1024

/-- Update of the TTAS-with-backoff delay, from `TTASLockWithBackoff::acquire`. -/
def ttasBackoffNext (delay : Nat) : Nat :=
  if delay < MAX_DELAY then delay * 2 else delay

/-- TTAS-with-backoff delay value after `k` failed exchanges. -/
def ttasDelaySeq : Nat → Nat
  | 0 => INITIAL_DELAY
  | k + 1 => ttasBackoffNext (ttasDelaySeq k)

/-! ### Sense-reversing barrier

From src/exercise2/my_barrier.h and src/exercise2/my_barrier.cpp.
Shared state is `count : atomic<int>`, `sense : atomic<bool>`, and the
constant `num_threads`; `my_sense` is a `thread_local` boolean
initialized to `true`.
-/

/-- Shared state of a `SenseReversingBarrier` instance. -/
structure SenseReversingBarrier where
  count : Int
  sense : Bool
  num_threads : Int
deriving DecidableEq, Repr

/-- The constructor `SenseReversingBarrier(int n) : count(n), sense(true), num_threads(n) {}`.
It performs no validation of `n`. -/
def SenseReversingBarrier.construct (n : Int) : SenseReversingBarrier :=
  { count := n, sense := true, num_threads := n }

/-- Initial value of the `thread_local` member:
`thread_local bool SenseReversingBarrier::my_sense = true;`. -/
def mySenseInit : Bool := true

/-- Modelled from the spec: a checked constructor in which `N ≤ 0` is a fatal
configuration error ("Construction takes a fixed positive participant count
`N`; `N ≤ 0` is a fatal configuration error").  The source constructor has no
such check; this definition exists only to compare the source against the
spec's words. -/
def constructChecked (n : Int) : Option SenseReversingBarrier :=
  if n ≤ 0 then none else some { count := n, sense := true, num_threads := n }

/-- Control point inside a single `SenseReversingBarrier::wait()` call,
one constructor per atomic operation of the source. -/
inductive WaitPhase where
  | start
  | fetchSub (ls : Bool)
  | resetCount (ls : Bool)
  | flipSense (ls : Bool)
  | poll (ls : Bool) (delay : Nat)
  | flipLocal (ls : Bool)
  | done
deriving DecidableEq, Repr

/-- State visible to one thread executing `wait()`: the shared barrier,
the thread's own `my_sense`, and its control point. -/
structure WaitState where
  bar : SenseReversingBarrier
  my_sense : Bool
  phase : WaitPhase
deriving DecidableEq, Repr

/-- One atomic step of `SenseReversingBarrier::wait()` (src/exercise2/my_barrier.cpp):
read `my_sense`; `count.fetch_sub(1)` branching on whether the pre-decrement
value was `1`; last arrival stores `num_threads` into `count` and `!my_sense_local`
into `sense`; a waiter polls `sense` with exponential backoff; both branches
finally flip `my_sense`. -/
def waitStep (s : WaitState) : WaitState :=
  match s.phase with
  | .start => { s with phase := .fetchSub s.my_sense }
  | .fetchSub ls =>
      let old := s.bar.count
      let b := { s.bar with count := old - 1 }
      if old = 1 then { s with bar := b, phase := .resetCount ls }
      else { s with bar := b, phase := .poll ls 1 }
  | .resetCount ls =>
      { s with bar := { s.bar with count := s.bar.num_threads }, phase := .flipSense ls }
  | .flipSense ls =>
      { s with bar := { s.bar with sense := !ls }, phase := .flipLocal ls }
  | .poll ls d =>
      if s.bar.sense = ls then { s with phase := .poll ls (backoffNext d) }
      else { s with phase := .flipLocal ls }
  | .flipLocal ls => { s with my_sense := !ls, phase := .done }
  | .done => s

/-- Abstract one-arrival step of a phase, as modelled from `wait()`:
the decrement of `count`, with the arrival that observes pre-decrement
value 1 resetting `count` to `N` and flipping `sense`. -/
structure PhaseState where
  count : Int
  sense : Bool
deriving DecidableEq, Repr

/-- One arrival: collapses `count.fetch_sub(1)` together with the last
arrival's `count := num_threads` reset and `sense` flip. -/
def arrive (N : Int) (s : PhaseState) : PhaseState :=
  if s.count = 1 then { count := N, sense := !s.sense }
  else { count := s.count - 1, sense := s.sense }

/-- Per-thread state that outlives any single barrier: `my_sense` is a
`static thread_local` member of the class, one boolean per thread shared
by every `SenseReversingBarrier` instance. -/
structure BarrierWorld where
  my_sense : Nat → Bool

/-- Constructing a new barrier (src/exercise2/my_barrier.cpp): the member
initializer list touches only the new object's own fields; no thread's
`my_sense` is written. -/
def constructBarrierW (w : BarrierWorld) (n : Int) :
    BarrierWorld × SenseReversingBarrier :=
  (w, SenseReversingBarrier.construct n)

/-! ### Generic lock harness

Each worker thread runs
`for (i = 0; i < M; i++) { lock.acquire(); counter++; lock.release(); }`
over a plain (non-atomic) shared counter (src/excercise1 and
src/exercise1 benchmark drivers).  The non-atomic `counter++` is two
separate steps: a load of `counter` into a temporary, then a store of
`temporary + 1`.  A lock implementation contributes its shared state
`G`, its acquire-loop control states `A` and its release control states
`R`, each atomic operation being one step.
-/

/-- Control state of one worker thread. -/
inductive ThreadSt (A R : Type) where
  | acq (d : Nat) (a : A)
  | load (d : Nat)
  | store (d : Nat) (tmp : Nat)
  | rel (d : Nat) (r : R)
  | fin
deriving DecidableEq

/-- A lock implementation: shared state, acquire/release control states,
and one-atomic-operation step functions.  The step functions receive the
calling thread's id, which for MCS doubles as the identity of its node.
Returning `none` means the call completed. -/
structure LockImpl where
  G : Type
  A : Type
  R : Type
  g0 : G
  a0 : A
  r0 : R
  acqStep : Nat → G → A → G × Option A
  relStep : Nat → G → R → G × Option R

/-- Whole-system state: lock shared state, the plain shared counter, and
each thread's control state. -/
structure SysState (impl : LockImpl) where
  g : impl.G
  counter : Nat
  th : Nat → ThreadSt impl.A impl.R

/-- One interleaving step: thread `t` executes its next atomic operation. -/
def sysStep (impl : LockImpl) (M : Nat) (t : Nat) (s : SysState impl) :
    SysState impl :=
  match s.th t with
  | .acq d a =>
      match impl.acqStep t s.g a with
      | (g', some a') => { s with g := g', th := Function.update s.th t (.acq d a') }
      | (g', none) => { s with g := g', th := Function.update s.th t (.load d) }
  | .load d => { s with th := Function.update s.th t (.store d s.counter) }
  | .store d tmp =>
      { s with counter := tmp + 1, th := Function.update s.th t (.rel d impl.r0) }
  | .rel d r =>
      match impl.relStep t s.g r with
      | (g', some r') => { s with g := g', th := Function.update s.th t (.rel d r') }
      | (g', none) =>
          { s with g := g',
                   th := Function.update s.th t
                     (if d + 1 < M then .acq (d + 1) impl.a0 else .fin) }
  | .fin => s

/-- Initial state: `n` worker threads about to make their first
acquisition (none if `M = 0`), counter zero, lock free. -/
def sysInit (impl : LockImpl) (n M : Nat) : SysState impl :=
  { g := impl.g0, counter := 0,
    th := fun t => if t < n ∧ 0 < M then .acq 0 impl.a0 else .fin }

/-- Reachability under arbitrary interleavings of the `n` threads. -/
inductive SysReach (impl : LockImpl) (n M : Nat) : SysState impl → Prop where
  | init : SysReach impl n M (sysInit impl n M)
  | step (t : Nat) {s : SysState impl} :
      SysReach impl n M s → SysReach impl n M (sysStep impl M t s)

/-- Thread is strictly between the return of `acquire` and the start of
`release`: this is the critical section of the benchmark body. -/
def ThreadSt.inCS {A R : Type} : ThreadSt A R → Bool
  | .load _ => true
  | .store _ _ => true
  | _ => false

/-- Thread holds the lock: inside the critical section or inside `release`. -/
def ThreadSt.holding {A R : Type} : ThreadSt A R → Bool
  | .load _ => true
  | .store _ _ => true
  | .rel _ _ => true
  | _ => false

/-- Number of counter increments a thread's state accounts for. -/
def ThreadSt.contrib {A R : Type} (M : Nat) : ThreadSt A R → Nat
  | .acq d _ => d
  | .load d => d
  | .store d _ => d
  | .rel d _ => d + 1
  | .fin => M

/-- Completed-iteration count of a live thread. -/
def ThreadSt.dOf {A R : Type} : ThreadSt A R → Option Nat
  | .acq d _ => some d
  | .load d => some d
  | .store d _ => some d
  | .rel d _ => some d
  | .fin => none

/-- At most one thread holds the lock. -/
def AtMostOneHolder {impl : LockImpl} (s : SysState impl) : Prop :=
  ∀ t₁ t₂, (s.th t₁).holding = true → (s.th t₂).holding = true → t₁ = t₂

/-- Counter bookkeeping invariant: the counter equals the increments
accounted for by thread states, any in-flight temporary is accurate, the
iteration counters stay below `M`, and threads beyond `n` do not exist. -/
def CInv (impl : LockImpl) (n M : Nat) (s : SysState impl) : Prop :=
  s.counter = ∑ x ∈ Finset.range n, (s.th x).contrib M ∧
  (∀ t d tmp, s.th t = .store d tmp → tmp = s.counter) ∧
  (∀ t d, (s.th t).dOf = some d → d < M) ∧
  (∀ t, n ≤ t → s.th t = .fin)

/-! ### TAS lock (src/excercise1/lock.h `TASLock`)

`lock()`: `while (locked.exchange(true, acquire)) {}`;
`unlock()`: `locked.store(false, release)`.
-/

/-- One `locked.exchange(true)`: the flag becomes true; the call completes
iff the previous value was `false`. -/
def TASLock.acqStep (_t : Nat) (g : Bool) (_a : Unit) : Bool × Option Unit :=
  (true, if g then some () else none)

/-- `locked.store(false)`. -/
def TASLock.relStep (_t : Nat) (_g : Bool) (_r : Unit) : Bool × Option Unit :=
  (false, none)

/-- The TAS lock: one shared atomic boolean, initially `false`. -/
def TASLock.impl : LockImpl :=
  { G := Bool, A := Unit, R := Unit, g0 := false, a0 := (), r0 := (),
    acqStep := TASLock.acqStep, relStep := TASLock.relStep }

/-! ### TTAS lock (src/excercise1/lock.h `TTASLock`) -/

/-- Acquire control of `TTASLock::lock`: the read-only test loop, then
the exchange attempt. -/
inductive TTASPhase where
  | test
  | exch
deriving DecidableEq

/-- One atomic operation of `TTASLock::lock`: a relaxed load in the test
phase (loop while it reads `true`), then `locked.exchange(true)`, going
back to the test phase when the exchange observed `true`. -/
def TTASLock.acqStep (_t : Nat) (g : Bool) (a : TTASPhase) : Bool × Option TTASPhase :=
  match a with
  | .test => (g, if g then some .test else some .exch)
  | .exch => (true, if g then some .test else none)

/-- `locked.store(false)`. -/
def TTASLock.relStep (_t : Nat) (_g : Bool) (_r : Unit) : Bool × Option Unit :=
  (false, none)

/-- The TTAS lock: one shared atomic boolean, initially `false`. -/
def TTASLock.impl : LockImpl :=
  { G := Bool, A := TTASPhase, R := Unit, g0 := false, a0 := .test, r0 := (),
    acqStep := TTASLock.acqStep, relStep := TTASLock.relStep }

/-! ### MCS lock (src/excercise1/lock.h `MCSLock`)

Each thread owns one queue node (the `thread_local` node of the
simplified API), so nodes are identified with thread ids: `next` and
`locked` become shared per-node arrays.  A ghost `log` records
tail-swap and critical-section-entry events for the FIFO property.
-/

/-- Ghost events: a thread's tail-swap, and its entry into the critical
section (its `lock` call returning). -/
inductive MCSEvent where
  | swapEv (t : Nat)
  | enterEv (t : Nat)
deriving DecidableEq, Repr

/-- Shared state of the MCS lock: the `tail` pointer plus every node's
`next` and `locked` fields (`Node` defaults: `next{nullptr}`,
`locked{true}`), and the ghost event log. -/
structure MCSState where
  tail : Option Nat
  next : Nat → Option Nat
  nlocked : Nat → Bool
  log : List MCSEvent

/-- Control points of `MCSLock::lock`: initialize the node, swap `tail`,
link into the predecessor's `next`, spin on the own `locked` flag. -/
inductive MCSAcq where
  | start
  | swap
  | linkpred (p : Nat)
  | spin
deriving DecidableEq, Repr

/-- Control points of `MCSLock::unlock`: load own `next`; CAS `tail` to
null; re-load `next` until non-null; store `false` into the successor's
`locked`. -/
inductive MCSRel where
  | readNext
  | casTail
  | waitNext
  | signal (sc : Nat)
deriving DecidableEq, Repr

/-- One atomic operation of `MCSLock::lock(Node&)`:
`myNode.next = nullptr; myNode.locked = true` (node initialization),
`tail.exchange(&myNode)` returning the predecessor (immediate acquisition
when it was null), `predecessor->next = &myNode`, then spinning on
`myNode.locked` until it reads `false`. -/
def MCSLock.acqStep (t : Nat) (g : MCSState) (a : MCSAcq) : MCSState × Option MCSAcq :=
  match a with
  | .start =>
      ({ g with next := Function.update g.next t none,
                nlocked := Function.update g.nlocked t true }, some .swap)
  | .swap =>
      match g.tail with
      | none => ({ g with tail := some t, log := g.log ++ [.swapEv t, .enterEv t] }, none)
      | some p => ({ g with tail := some t, log := g.log ++ [.swapEv t] }, some (.linkpred p))
  | .linkpred p => ({ g with next := Function.update g.next p (some t) }, some .spin)
  | .spin =>
      if g.nlocked t then (g, some .spin)
      else ({ g with log := g.log ++ [.enterEv t] }, none)

/-- One atomic operation of `MCSLock::unlock(Node&)`:
load `myNode.next`; if null `tail.compare_exchange_strong(&myNode, nullptr)`
(done when it succeeds), else re-load `myNode.next` until non-null; then
`next->locked = false`. -/
def MCSLock.relStep (t : Nat) (g : MCSState) (r : MCSRel) : MCSState × Option MCSRel :=
  match r with
  | .readNext =>
      match g.next t with
      | none => (g, some .casTail)
      | some sc => (g, some (.signal sc))
  | .casTail =>
      if g.tail = some t then ({ g with tail := none }, none)
      else (g, some .waitNext)
  | .waitNext =>
      match g.next t with
      | none => (g, some .waitNext)
      | some sc => (g, some (.signal sc))
  | .signal sc => ({ g with nlocked := Function.update g.nlocked sc false }, none)

/-- The MCS lock: `tail` initially null, all nodes with `next = nullptr`
and `locked = true` (their default member initializers), empty log. -/
def MCSLock.impl : LockImpl :=
  { G := MCSState, A := MCSAcq, R := MCSRel,
    g0 := { tail := none, next := fun _ => none, nlocked := fun _ => true, log := [] },
    a0 := .start, r0 := .readNext,
    acqStep := MCSLock.acqStep, relStep := MCSLock.relStep }

/-- The three lock types of src/excercise1/lock.h. -/
inductive LockKind where
  | tas
  | ttas
  | mcs
deriving DecidableEq

/-- Dispatch from a lock type to its implementation. -/
def implOf : LockKind → LockImpl
  | .tas => TASLock.impl
  | .ttas => TTASLock.impl
  | .mcs => MCSLock.impl

/-- Projection of the ghost log to the sequence of tail-swap (arrival)
events. -/
def swapsOf (log : List MCSEvent) : List Nat :=
  log.filterMap fun e => match e with | .swapEv t => some t | _ => none

/-- Projection of the ghost log to the sequence of critical-section
entry events. -/
def entersOf (log : List MCSEvent) : List Nat :=
  log.filterMap fun e => match e with | .enterEv t => some t | _ => none

/-! ### MCS queue invariant (definitions)

The inductive invariant of the MCS system: the existentially quantified
list `q` is the queue of threads that have completed their tail-swap and
not yet completed their release effect, in swap order.
-/

/-- Thread state is in the queued window: from the completed tail-swap to
the completed release effect. -/
def queuedSt : ThreadSt MCSAcq MCSRel → Bool
  | .acq _ .start => false
  | .acq _ .swap => false
  | .acq _ (.linkpred _) => true
  | .acq _ .spin => true
  | .load _ => true
  | .store _ _ => true
  | .rel _ _ => true
  | .fin => false

/-- The pending predecessor captured by a thread that has swapped but not
yet linked itself into its predecessor's `next`. -/
def linkpredOf : ThreadSt MCSAcq MCSRel → Option Nat
  | .acq _ (.linkpred p) => some p
  | _ => none

/-- A non-head queue member is still acquiring (about to link, or
spinning) and its private `locked` flag is still `true`. -/
def nonheadOK (th : Nat → ThreadSt MCSAcq MCSRel) (nl : Nat → Bool) (c : Nat) : Prop :=
  ((∃ d p, th c = .acq d (.linkpred p)) ∨ ∃ d, th c = .acq d .spin) ∧ nl c = true

/-- Link between consecutive queue members `p` then `c`: either `c` has
linked itself (`p.next` points to `c`), or `c` still has the link
pending, in which case the pending predecessor is `p` and `p.next` is
still null. -/
def LinkOK (th : Nat → ThreadSt MCSAcq MCSRel) (nx : Nat → Option Nat)
    (p c : Nat) : Prop :=
  match linkpredOf (th c) with
  | some p' => p' = p ∧ nx p = none
  | none => nx p = some c

/-- The queue head either holds the lock or has been signalled (spinning
with its `locked` flag already `false`). -/
def headOK (th : Nat → ThreadSt MCSAcq MCSRel) (nl : Nat → Bool) (h : Nat) : Prop :=
  (th h).holding = true ∨ ((∃ d, th h = .acq d .spin) ∧ nl h = false)

/-- The chain of links and non-head conditions along the queue after its
head: `p` is the previous member. -/
def chainOK (th : Nat → ThreadSt MCSAcq MCSRel) (nx : Nat → Option Nat)
    (nl : Nat → Bool) : Nat → List Nat → Prop
  | _, [] => True
  | p, c :: cs => LinkOK th nx p c ∧ nonheadOK th nl c ∧ chainOK th nx nl c cs

/-- Last element of `p :: l`. -/
def lastOf (p : Nat) (l : List Nat) : Nat := l.getLastD p

/-- Well-formed queue: empty with null `tail`, or a head satisfying
`headOK`, a chain after it, a null `next` at the last member, and `tail`
pointing to the last member. -/
def queueOK (th : Nat → ThreadSt MCSAcq MCSRel) (nx : Nat → Option Nat)
    (nl : Nat → Bool) (tl : Option Nat) : List Nat → Prop
  | [] => tl = none
  | h :: rest =>
      headOK th nl h ∧ chainOK th nx nl h rest ∧
      nx (lastOf h rest) = none ∧ tl = some (lastOf h rest)

/-- Queue members that have not yet entered the critical section for
their current acquisition. -/
def pendingOf (th : Nat → ThreadSt MCSAcq MCSRel) (q : List Nat) : List Nat :=
  match q with
  | [] => []
  | h :: rest => if (th h).holding then rest else q

/-- The MCS system invariant. -/
def MCSInv (s : SysState MCSLock.impl) : Prop :=
  ∃ q : List Nat,
    q.Nodup ∧
    queueOK s.th s.g.next s.g.nlocked s.g.tail q ∧
    (∀ x, x ∈ q ↔ queuedSt (s.th x) = true) ∧
    (∀ x d, s.th x = .acq d .swap → s.g.next x = none ∧ s.g.nlocked x = true) ∧
    (∀ x d sc, s.th x = .rel d (.signal sc) → s.g.next x = some sc) ∧
    swapsOf s.g.log = entersOf s.g.log ++ pendingOf s.th q

/-! ### MCS simplified API over multiple lock instances

`MCSLock::acquire()`/`release()` call `lock`/`unlock` on
`threadLocalNode`, a single `static thread_local Node` per thread shared
by every `MCSLock` instance (src/excercise1/lock.h).  The world holds
one `tail` per lock instance, but one global `next`/`locked` pair per
node, since nodes belong to threads, not to locks.
-/

/-- Identity of the node the simplified API uses: the thread's single
static `thread_local` node — a function of the thread only, not of the
lock instance. -/
def threadLocalNode (t : Nat) : Nat := t

/-- Multi-instance world: a `tail` per `MCSLock` instance, node fields
global across instances. -/
structure MCSWorld where
  tails : Nat → Option Nat
  next : Nat → Option Nat
  nlocked : Nat → Bool

/-- One atomic operation of the node-passing `MCSLock::lock(Node&)`
against lock instance `l`, with the caller-supplied node id. -/
def lockStepW (node l : Nat) (w : MCSWorld) (a : MCSAcq) : MCSWorld × Option MCSAcq :=
  match a with
  | .start =>
      ({ w with next := Function.update w.next node none,
                nlocked := Function.update w.nlocked node true }, some .swap)
  | .swap =>
      match w.tails l with
      | none => ({ w with tails := Function.update w.tails l (some node) }, none)
      | some p =>
          ({ w with tails := Function.update w.tails l (some node) }, some (.linkpred p))
  | .linkpred p => ({ w with next := Function.update w.next p (some node) }, some .spin)
  | .spin => if w.nlocked node then (w, some .spin) else (w, none)

/-- One atomic operation of the node-passing `MCSLock::unlock(Node&)`. -/
def unlockStepW (node l : Nat) (w : MCSWorld) (r : MCSRel) : MCSWorld × Option MCSRel :=
  match r with
  | .readNext =>
      match w.next node with
      | none => (w, some .casTail)
      | some sc => (w, some (.signal sc))
  | .casTail =>
      if w.tails l = some node then
        ({ w with tails := Function.update w.tails l none }, none)
      else (w, some .waitNext)
  | .waitNext =>
      match w.next node with
      | none => (w, some .waitNext)
      | some sc => (w, some (.signal sc))
  | .signal sc => ({ w with nlocked := Function.update w.nlocked sc false }, none)

/-- The body of `MCSLock::acquire()`: `lock(threadLocalNode)`. -/
def acquireStepW (t l : Nat) (w : MCSWorld) (a : MCSAcq) : MCSWorld × Option MCSAcq :=
  lockStepW (threadLocalNode t) l w a

/-- The body of `MCSLock::release()`: `unlock(threadLocalNode)`. -/
def releaseStepW (t l : Nat) (w : MCSWorld) (r : MCSRel) : MCSWorld × Option MCSRel :=
  unlockStepW (threadLocalNode t) l w r

/-- Inductive invariant of the TAS system: any holder implies the flag is
set, and there is at most one holder. -/
def TASInv (s : SysState TASLock.impl) : Prop :=
  (∀ x, (s.th x).holding = true → s.g = true) ∧ AtMostOneHolder s

/-- Inductive invariant of the TTAS system: same as for TAS. -/
def TTASInv (s : SysState TTASLock.impl) : Prop :=
  (∀ x, (s.th x).holding = true → s.g = true) ∧ AtMostOneHolder s

/-! ## Theorems -/

/-! ### Backoff -/

theorem barrierDelaySeq_eq (k : Nat) : barrierDelaySeq k = min (2 ^ k) 1000 := by
  induction k with
  | zero => rfl
  | succ k ih =>
      have h2 : (2 : Nat) ^ (k + 1) = 2 ^ k * 2 := by rw [pow_succ]
      simp only [barrierDelaySeq, backoffNext, ih, h2]
      omega

theorem ttasDelaySeq_eq (k : Nat) : ttasDelaySeq k = min (2 ^ k) 1024 := by
  induction k with
  | zero => simp [ttasDelaySeq, INITIAL_DELAY]
  | succ k ih =>
      have h2 : (2 : Nat) ^ (k + 1) = 2 ^ k * 2 := by rw [pow_succ]
      rcases le_or_lt k 9 with hk | hk
      · have hle : (2 : Nat) ^ k ≤ 2 ^ 9 := Nat.pow_le_pow_right (by norm_num) hk
        have h512 : (2 : Nat) ^ 9 = 512 := by norm_num
        simp only [ttasDelaySeq, ttasBackoffNext, ih, MAX_DELAY, h2]
        rw [if_pos (by omega)]
        omega
      · have hge : (2 : Nat) ^ 10 ≤ 2 ^ k := Nat.pow_le_pow_right (by norm_num) hk
        have h1024 : (2 : Nat) ^ 10 = 1024 := by norm_num
        simp only [ttasDelaySeq, ttasBackoffNext, ih, MAX_DELAY, h2]
        rw [if_neg (by omega)]
        omega

/-! ### Barrier: single `wait()` runs -/

theorem waitRun_last (b : SenseReversingBarrier) (ms : Bool) (h : b.count = 1) :
    waitStep^[5] ⟨b, ms, .start⟩ =
      ⟨⟨b.num_threads, !ms, b.num_threads⟩, !ms, .done⟩ := by
  show waitStep (waitStep (waitStep (waitStep (waitStep ⟨b, ms, .start⟩)))) = _
  simp [waitStep, h]

theorem waitRun_last_mid (b : SenseReversingBarrier) (ms : Bool) (h : b.count = 1) :
    (waitStep^[3] ⟨b, ms, .start⟩).bar = ⟨b.num_threads, b.sense, b.num_threads⟩ ∧
    (waitStep^[4] ⟨b, ms, .start⟩).bar = ⟨b.num_threads, !ms, b.num_threads⟩ := by
  constructor
  · show (waitStep (waitStep (waitStep ⟨b, ms, .start⟩))).bar = _
    simp [waitStep, h]
  · show (waitStep (waitStep (waitStep (waitStep ⟨b, ms, .start⟩)))).bar = _
    simp [waitStep, h]

theorem waitRun_waiter (b : SenseReversingBarrier) (ms : Bool)
    (h1 : b.count ≠ 1) (h2 : b.sense ≠ ms) :
    waitStep^[4] ⟨b, ms, .start⟩ =
      ⟨⟨b.count - 1, b.sense, b.num_threads⟩, !ms, .done⟩ := by
  show waitStep (waitStep (waitStep (waitStep ⟨b, ms, .start⟩))) = _
  simp [waitStep, h1, h2]

theorem waitRun_blocked (b : SenseReversingBarrier) (ms : Bool)
    (h1 : b.count ≠ 1) (h2 : b.sense = ms) (k : Nat) :
    (waitStep^[2 + k] ⟨b, ms, .start⟩) =
      ⟨⟨b.count - 1, b.sense, b.num_threads⟩, ms, .poll ms (barrierDelaySeq k)⟩ := by
  induction k with
  | zero =>
      show waitStep (waitStep ⟨b, ms, .start⟩) = _
      simp [waitStep, h1, barrierDelaySeq]
  | succ k ih =>
      have hs : 2 + (k + 1) = (2 + k) + 1 := by omega
      rw [hs, Function.iterate_succ_apply', ih]
      simp [waitStep, h2, barrierDelaySeq]

/-! ### Barrier: whole phases of the arrival model -/

theorem arrive_countdown (N : Int) (m : Nat) (b : Bool) :
    (arrive N)^[m + 1] ⟨(m : Int) + 1, b⟩ = ⟨N, !b⟩ := by
  induction m with
  | zero => simp [arrive]
  | succ m ih =>
      rw [Function.iterate_succ_apply]
      have hne : ((m : Int) + 1 + 1 = 1) = False := by
        simp only [eq_iff_iff, iff_false]
        omega
      have harr : arrive N ⟨(m : Int) + 1 + 1, b⟩ = ⟨(m : Int) + 1, b⟩ := by
        simp [arrive, hne]
      rw [show ((m + 1 : Nat) : Int) + 1 = (m : Int) + 1 + 1 by push_cast; ring, harr, ih]

theorem arrive_phase (N : Int) (hN : 1 ≤ N) (s : PhaseState) (hs : s.count = N) :
    (arrive N)^[N.toNat] s = ⟨N, !s.sense⟩ := by
  obtain ⟨m, hm⟩ : ∃ m : Nat, N.toNat = m + 1 :=
    ⟨N.toNat - 1, by omega⟩
  have hcast : ((m : Int) + 1) = N := by
    have := Int.toNat_of_nonneg (by omega : (0 : Int) ≤ N)
    omega
  have hsval : s = ⟨(m : Int) + 1, s.sense⟩ := by
    cases s
    simp_all
  rw [hm, hsval, arrive_countdown, hcast]

theorem arrive_phases (N : Int) (hN : 1 ≤ N) (s : PhaseState) (hs : s.count = N)
    (p : Nat) :
    (arrive N)^[N.toNat * p] s =
      ⟨N, if p % 2 = 0 then s.sense else !s.sense⟩ := by
  induction p with
  | zero =>
      cases s
      simp_all
  | succ p ih =>
      have hsplit : N.toNat * (p + 1) = N.toNat + N.toNat * p := by ring
      rw [hsplit, Function.iterate_add_apply, ih]
      have hstep : (arrive N)^[N.toNat]
          (⟨N, if p % 2 = 0 then s.sense else !s.sense⟩ : PhaseState) =
          ⟨N, !(if p % 2 = 0 then s.sense else !s.sense)⟩ :=
        arrive_phase N hN _ rfl
      rw [hstep]
      rcases Nat.even_or_odd p with hp | hp
      · have h1 : p % 2 = 0 := Nat.even_iff.mp hp
        have h2 : (p + 1) % 2 = 1 := by omega
        simp [h1, h2]
      · have h1 : p % 2 = 1 := Nat.odd_iff.mp hp
        have h2 : (p + 1) % 2 = 0 := by omega
        simp [h1, h2]

/-! ### Generic harness: counter bookkeeping -/

theorem sum_contrib_update {A R : Type} (f : Nat → ThreadSt A R) (t : Nat)
    (v : ThreadSt A R) (n M : Nat) (ht : t < n) :
    (∑ x ∈ Finset.range n, ((Function.update f t v) x).contrib M) + (f t).contrib M
      = (∑ x ∈ Finset.range n, (f x).contrib M) + v.contrib M := by
  have hmem : t ∈ Finset.range n := Finset.mem_range.mpr ht
  have hpt : ∀ x, (Function.update f t v x).contrib M
      = Function.update (fun j => (f j).contrib M) t (v.contrib M) x :=
    fun x => Function.apply_update (fun _ st => st.contrib M) f t v x
  rw [Finset.sum_congr rfl fun x _ => hpt x,
      Finset.sum_update_of_mem hmem,
      Finset.sum_eq_sum_diff_singleton_add hmem (fun x => (f x).contrib M)]
  omega

theorem CInv_mk (impl : LockImpl) (n M : Nat) (s : SysState impl)
    (g' : impl.G) (c' : Nat) (t : Nat) (v : ThreadSt impl.A impl.R)
    (ht : t < n) (hC : CInv impl n M s)
    (hc : c' + (s.th t).contrib M = s.counter + v.contrib M)
    (htmpv : ∀ d tmp, v = .store d tmp → tmp = c')
    (htmpold : ∀ x d tmp, x ≠ t → s.th x = .store d tmp → tmp = c')
    (hdv : ∀ d, v.dOf = some d → d < M) :
    CInv impl n M { g := g', counter := c', th := Function.update s.th t v } := by
  obtain ⟨hsum, htmp, hd, hout⟩ := hC
  refine ⟨?_, ?_, ?_, ?_⟩
  · dsimp only
    have := sum_contrib_update s.th t v n M ht
    omega
  · intro x d tmp hx
    dsimp only at hx ⊢
    rcases eq_or_ne x t with rfl | hne
    · rw [Function.update_same] at hx
      exact htmpv d tmp hx
    · rw [Function.update_noteq hne] at hx
      exact htmpold x d tmp hne hx
  · intro x d hx
    dsimp only at hx
    rcases eq_or_ne x t with rfl | hne
    · rw [Function.update_same] at hx
      exact hdv d hx
    · rw [Function.update_noteq hne] at hx
      exact hd x d hx
  · intro x hx
    dsimp only
    have hne : x ≠ t := by omega
    rw [Function.update_noteq hne]
    exact hout x hx

theorem CInv_init (impl : LockImpl) (n M : Nat) :
    CInv impl n M (sysInit impl n M) := by
  refine ⟨?_, ?_, ?_, ?_⟩
  · have hz : ∀ x ∈ Finset.range n, ((sysInit impl n M).th x).contrib M = 0 := by
      intro x hx
      by_cases hM : 0 < M
      · simp [sysInit, Finset.mem_range.mp hx, hM, ThreadSt.contrib]
      · have hM0 : M = 0 := by omega
        simp [sysInit, hM0, ThreadSt.contrib]
    rw [Finset.sum_eq_zero hz]
    rfl
  · intro t d tmp h
    simp only [sysInit] at h
    split at h <;> simp_all
  · intro t d h
    simp only [sysInit] at h
    split at h
    · rename_i hcond
      simp [ThreadSt.dOf] at h
      omega
    · simp [ThreadSt.dOf] at h
  · intro t ht
    simp [sysInit, Nat.not_lt.mpr ht]

theorem CInv_step (impl : LockImpl) (n M t : Nat) (s : SysState impl)
    (hC : CInv impl n M s) (hmux : AtMostOneHolder s) :
    CInv impl n M (sysStep impl M t s) := by
  by_cases htn : t < n
  case neg =>
    have hfin : s.th t = .fin := hC.2.2.2 t (Nat.le_of_not_lt htn)
    simpa [sysStep, hfin] using hC
  case pos =>
    obtain ⟨hsum, htmp, hd, hout⟩ := hC
    cases hth : s.th t with
    | fin => simpa [sysStep, hth] using ⟨hsum, htmp, hd, hout⟩
    | acq d a =>
        have hdlt : d < M := hd t d (by rw [hth]; rfl)
        rcases hstep : impl.acqStep t s.g a with ⟨g', o⟩
        cases o with
        | some a' =>
            have hred : sysStep impl M t s =
                { s with g := g', th := Function.update s.th t (.acq d a') } := by
              simp [sysStep, hth, hstep]
            rw [hred]
            exact CInv_mk impl n M s g' s.counter t (.acq d a') htn
              ⟨hsum, htmp, hd, hout⟩ (by simp [hth, ThreadSt.contrib])
              (by intro _ _ h; cases h)
              (fun x d' tmp' _ hx => htmp x d' tmp' hx)
              (by intro d' h; simp [ThreadSt.dOf] at h; omega)
        | none =>
            have hred : sysStep impl M t s =
                { s with g := g', th := Function.update s.th t (.load d) } := by
              simp [sysStep, hth, hstep]
            rw [hred]
            exact CInv_mk impl n M s g' s.counter t (.load d) htn
              ⟨hsum, htmp, hd, hout⟩ (by simp [hth, ThreadSt.contrib])
              (by intro _ _ h; cases h)
              (fun x d' tmp' _ hx => htmp x d' tmp' hx)
              (by intro d' h; simp [ThreadSt.dOf] at h; omega)
    | load d =>
        have hdlt : d < M := hd t d (by rw [hth]; rfl)
        have hred : sysStep impl M t s =
            { s with th := Function.update s.th t (.store d s.counter) } := by
          simp [sysStep, hth]
        rw [hred]
        exact CInv_mk impl n M s s.g s.counter t (.store d s.counter) htn
          ⟨hsum, htmp, hd, hout⟩ (by simp [hth, ThreadSt.contrib])
          (by intro d' tmp' h; cases h; rfl)
          (fun x d' tmp' _ hx => htmp x d' tmp' hx)
          (by intro d' h; simp [ThreadSt.dOf] at h; omega)
    | store d tmp =>
        have hdlt : d < M := hd t d (by rw [hth]; rfl)
        have htv : tmp = s.counter := htmp t d tmp hth
        have hred : sysStep impl M t s =
            { s with counter := tmp + 1, th := Function.update s.th t (.rel d impl.r0) } := by
          simp [sysStep, hth]
        rw [hred]
        refine CInv_mk impl n M s s.g (tmp + 1) t (.rel d impl.r0) htn
          ⟨hsum, htmp, hd, hout⟩ (by simp [hth, ThreadSt.contrib]; omega)
          (by intro _ _ h; cases h) ?_
          (by intro d' h; simp [ThreadSt.dOf] at h; omega)
        intro x d' tmp' hne hx
        exfalso
        have h1 : (s.th x).holding = true := by rw [hx]; rfl
        have h2 : (s.th t).holding = true := by rw [hth]; rfl
        exact hne (hmux x t h1 h2)
    | rel d r =>
        have hdlt : d < M := hd t d (by rw [hth]; rfl)
        rcases hstep : impl.relStep t s.g r with ⟨g', o⟩
        cases o with
        | some r' =>
            have hred : sysStep impl M t s =
                { s with g := g', th := Function.update s.th t (.rel d r') } := by
              simp [sysStep, hth, hstep]
            rw [hred]
            exact CInv_mk impl n M s g' s.counter t (.rel d r') htn
              ⟨hsum, htmp, hd, hout⟩ (by simp [hth, ThreadSt.contrib])
              (by intro _ _ h; cases h)
              (fun x d' tmp' _ hx => htmp x d' tmp' hx)
              (by intro d' h; simp [ThreadSt.dOf] at h; omega)
        | none =>
            by_cases hdM : d + 1 < M
            · have hred : sysStep impl M t s =
                  { s with g := g', th := Function.update s.th t (.acq (d + 1) impl.a0) } := by
                simp [sysStep, hth, hstep, hdM]
              rw [hred]
              exact CInv_mk impl n M s g' s.counter t (.acq (d + 1) impl.a0) htn
                ⟨hsum, htmp, hd, hout⟩ (by simp [hth, ThreadSt.contrib])
                (by intro _ _ h; cases h)
                (fun x d' tmp' _ hx => htmp x d' tmp' hx)
                (by intro d' h; simp [ThreadSt.dOf] at h; omega)
            · have hdM1 : d + 1 = M := by omega
              have hred : sysStep impl M t s =
                  { s with g := g', th := Function.update s.th t .fin } := by
                simp [sysStep, hth, hstep, hdM]
              rw [hred]
              exact CInv_mk impl n M s g' s.counter t .fin htn
                ⟨hsum, htmp, hd, hout⟩ (by simp [hth, ThreadSt.contrib]; omega)
                (by intro _ _ h; cases h)
                (fun x d' tmp' _ hx => htmp x d' tmp' hx)
                (by intro d' h; simp [ThreadSt.dOf] at h)

theorem sysInvariants (impl : LockImpl) (n M : Nat) (Φ : SysState impl → Prop)
    (h0 : Φ (sysInit impl n M))
    (hs : ∀ t s, Φ s → Φ (sysStep impl M t s))
    (hm : ∀ s, Φ s → AtMostOneHolder s) :
    ∀ s, SysReach impl n M s → Φ s ∧ CInv impl n M s := by
  intro s hr
  induction hr with
  | init => exact ⟨h0, CInv_init impl n M⟩
  | step t hr ih => exact ⟨hs t _ ih.1, CInv_step impl n M t _ ih.2 (hm _ ih.1)⟩

theorem final_counter (impl : LockImpl) (n M : Nat) (s : SysState impl)
    (hC : CInv impl n M s) (hfin : ∀ t, t < n → s.th t = .fin) :
    s.counter = n * M := by
  obtain ⟨hsum, -, -, -⟩ := hC
  rw [hsum,
      Finset.sum_congr rfl
        (fun x hx => by rw [hfin x (Finset.mem_range.mp hx)] : ∀ x ∈ Finset.range n,
          ((s.th x).contrib M) = (ThreadSt.fin : ThreadSt impl.A impl.R).contrib M)]
  simp [ThreadSt.contrib, mul_comm]

/-! ### Boolean-flag locks: TAS and TTAS -/

theorem update_holding_cases {A R : Type} (f : Nat → ThreadSt A R) (t : Nat)
    (v : ThreadSt A R) (x : Nat)
    (h : (Function.update f t v x).holding = true) :
    (x = t ∧ v.holding = true) ∨ (x ≠ t ∧ (f x).holding = true) := by
  rcases eq_or_ne x t with rfl | hx
  · left
    exact ⟨rfl, by rwa [Function.update_same] at h⟩
  · right
    exact ⟨hx, by rwa [Function.update_noteq hx] at h⟩

theorem TASInv_init (n M : Nat) : TASInv (sysInit TASLock.impl n M) := by
  constructor
  · intro x hx
    by_cases hc : x < n ∧ 0 < M
    · simp [sysInit, hc, ThreadSt.holding] at hx
    · simp [sysInit, hc, ThreadSt.holding] at hx
  · intro x y hx hy
    exfalso
    by_cases hc : x < n ∧ 0 < M
    · simp [sysInit, hc, ThreadSt.holding] at hx
    · simp [sysInit, hc, ThreadSt.holding] at hx

theorem TASInv_step (M t : Nat) (s : SysState TASLock.impl) (h : TASInv s) :
    TASInv (sysStep TASLock.impl M t s) := by
  obtain ⟨hflag, hmux⟩ := h
  cases hth : s.th t with
  | fin =>
      rw [show sysStep TASLock.impl M t s = s from by simp [sysStep, hth]]
      exact ⟨hflag, hmux⟩
  | acq d a =>
      cases a
      by_cases hg : s.g = true
      · rw [show sysStep TASLock.impl M t s =
              { s with g := true, th := Function.update s.th t (.acq d ()) } from by
            simp [sysStep, hth, TASLock.impl, TASLock.acqStep, hg]]
        refine ⟨fun x _ => rfl, fun x y hx hy => ?_⟩
        rcases update_holding_cases s.th t _ x hx with ⟨hxeq, hvx⟩ | ⟨hxt, hox⟩
        · cases hvx
        · rcases update_holding_cases s.th t _ y hy with ⟨hyeq, hvy⟩ | ⟨hyt, hoy⟩
          · cases hvy
          · exact hmux x y hox hoy
      · rw [show sysStep TASLock.impl M t s =
              { s with g := true, th := Function.update s.th t (.load d) } from by
            simp [sysStep, hth, TASLock.impl, TASLock.acqStep, hg]]
        refine ⟨fun x _ => rfl, fun x y hx hy => ?_⟩
        rcases update_holding_cases s.th t _ x hx with ⟨hxeq, -⟩ | ⟨hxt, hox⟩
        · rcases update_holding_cases s.th t _ y hy with ⟨hyeq, -⟩ | ⟨hyt, hoy⟩
          · rw [hxeq, hyeq]
          · exact absurd (hflag y hoy) hg
        · exact absurd (hflag x hox) hg
  | load d =>
      have hht : (s.th t).holding = true := by rw [hth]; rfl
      rw [show sysStep TASLock.impl M t s =
            { s with th := Function.update s.th t (.store d s.counter) } from by
          simp [sysStep, hth]]
      refine ⟨fun x hx => ?_, fun x y hx hy => ?_⟩
      · exact hflag t hht
      · rcases update_holding_cases s.th t _ x hx with ⟨hxeq, -⟩ | ⟨hxt, hox⟩
        · rcases update_holding_cases s.th t _ y hy with ⟨hyeq, -⟩ | ⟨hyt, hoy⟩
          · rw [hxeq, hyeq]
          · rw [hxeq]
            exact (hmux y t hoy hht).symm
        · rcases update_holding_cases s.th t _ y hy with ⟨hyeq, -⟩ | ⟨hyt, hoy⟩
          · rw [hyeq]
            exact hmux x t hox hht
          · exact hmux x y hox hoy
  | store d tmp =>
      have hht : (s.th t).holding = true := by rw [hth]; rfl
      rw [show sysStep TASLock.impl M t s =
            { s with counter := tmp + 1,
                     th := Function.update s.th t (.rel d TASLock.impl.r0) } from by
          simp [sysStep, hth]]
      refine ⟨fun x hx => ?_, fun x y hx hy => ?_⟩
      · exact hflag t hht
      · rcases update_holding_cases s.th t _ x hx with ⟨hxeq, -⟩ | ⟨hxt, hox⟩
        · rcases update_holding_cases s.th t _ y hy with ⟨hyeq, -⟩ | ⟨hyt, hoy⟩
          · rw [hxeq, hyeq]
          · rw [hxeq]
            exact (hmux y t hoy hht).symm
        · rcases update_holding_cases s.th t _ y hy with ⟨hyeq, -⟩ | ⟨hyt, hoy⟩
          · rw [hyeq]
            exact hmux x t hox hht
          · exact hmux x y hox hoy
  | rel d r =>
      cases r
      have hht : (s.th t).holding = true := by rw [hth]; rfl
      rw [show sysStep TASLock.impl M t s =
            { s with g := false,
                     th := Function.update s.th t
                       (if d + 1 < M then .acq (d + 1) TASLock.impl.a0 else .fin) } from by
          by_cases hdM : d + 1 < M <;>
            simp [sysStep, hth, TASLock.impl, TASLock.relStep, hdM]]
      have hvnot : (if d + 1 < M then (ThreadSt.acq (d + 1) TASLock.impl.a0 :
          ThreadSt TASLock.impl.A TASLock.impl.R) else .fin).holding = false := by
        by_cases hdM : d + 1 < M <;> simp [hdM, ThreadSt.holding]
      refine ⟨fun x hx => ?_, fun x y hx hy => ?_⟩
      · exfalso
        rcases update_holding_cases s.th t _ x hx with ⟨hxeq, hvx⟩ | ⟨hxt, hox⟩
        · rw [hvnot] at hvx
          cases hvx
        · exact hxt (hmux x t hox hht)
      · exfalso
        rcases update_holding_cases s.th t _ x hx with ⟨hxeq, hvx⟩ | ⟨hxt, hox⟩
        · rw [hvnot] at hvx
          cases hvx
        · exact hxt (hmux x t hox hht)

theorem TTASInv_init (n M : Nat) : TTASInv (sysInit TTASLock.impl n M) := by
  constructor
  · intro x hx
    by_cases hc : x < n ∧ 0 < M
    · simp [sysInit, hc, ThreadSt.holding] at hx
    · simp [sysInit, hc, ThreadSt.holding] at hx
  · intro x y hx hy
    exfalso
    by_cases hc : x < n ∧ 0 < M
    · simp [sysInit, hc, ThreadSt.holding] at hx
    · simp [sysInit, hc, ThreadSt.holding] at hx

theorem TTASInv_step (M t : Nat) (s : SysState TTASLock.impl) (h : TTASInv s) :
    TTASInv (sysStep TTASLock.impl M t s) := by
  obtain ⟨hflag, hmux⟩ := h
  cases hth : s.th t with
  | fin =>
      rw [show sysStep TTASLock.impl M t s = s from by simp [sysStep, hth]]
      exact ⟨hflag, hmux⟩
  | acq d a =>
      cases a with
      | test =>
          by_cases hg : s.g = true
          · rw [show sysStep TTASLock.impl M t s =
                  { s with g := s.g, th := Function.update s.th t (.acq d .test) } from by
                simp [sysStep, hth, TTASLock.impl, TTASLock.acqStep, hg]]
            refine ⟨fun x hx => ?_, fun x y hx hy => ?_⟩
            · rcases update_holding_cases s.th t _ x hx with ⟨hxeq, hvx⟩ | ⟨hxt, hox⟩
              · cases hvx
              · exact hflag x hox
            · rcases update_holding_cases s.th t _ x hx with ⟨hxeq, hvx⟩ | ⟨hxt, hox⟩
              · cases hvx
              · rcases update_holding_cases s.th t _ y hy with ⟨hyeq, hvy⟩ | ⟨hyt, hoy⟩
                · cases hvy
                · exact hmux x y hox hoy
          · rw [show sysStep TTASLock.impl M t s =
                  { s with g := s.g, th := Function.update s.th t (.acq d .exch) } from by
                simp [sysStep, hth, TTASLock.impl, TTASLock.acqStep, hg]]
            refine ⟨fun x hx => ?_, fun x y hx hy => ?_⟩
            · rcases update_holding_cases s.th t _ x hx with ⟨hxeq, hvx⟩ | ⟨hxt, hox⟩
              · cases hvx
              · exact hflag x hox
            · rcases update_holding_cases s.th t _ x hx with ⟨hxeq, hvx⟩ | ⟨hxt, hox⟩
              · cases hvx
              · rcases update_holding_cases s.th t _ y hy with ⟨hyeq, hvy⟩ | ⟨hyt, hoy⟩
                · cases hvy
                · exact hmux x y hox hoy
      | exch =>
          by_cases hg : s.g = true
          · rw [show sysStep TTASLock.impl M t s =
                  { s with g := true, th := Function.update s.th t (.acq d .test) } from by
                simp [sysStep, hth, TTASLock.impl, TTASLock.acqStep, hg]]
            refine ⟨fun x _ => rfl, fun x y hx hy => ?_⟩
            rcases update_holding_cases s.th t _ x hx with ⟨hxeq, hvx⟩ | ⟨hxt, hox⟩
            · cases hvx
            · rcases update_holding_cases s.th t _ y hy with ⟨hyeq, hvy⟩ | ⟨hyt, hoy⟩
              · cases hvy
              · exact hmux x y hox hoy
          · rw [show sysStep TTASLock.impl M t s =
                  { s with g := true, th := Function.update s.th t (.load d) } from by
                simp [sysStep, hth, TTASLock.impl, TTASLock.acqStep, hg]]
            refine ⟨fun x _ => rfl, fun x y hx hy => ?_⟩
            rcases update_holding_cases s.th t _ x hx with ⟨hxeq, -⟩ | ⟨hxt, hox⟩
            · rcases update_holding_cases s.th t _ y hy with ⟨hyeq, -⟩ | ⟨hyt, hoy⟩
              · rw [hxeq, hyeq]
              · exact absurd (hflag y hoy) hg
            · exact absurd (hflag x hox) hg
  | load d =>
      have hht : (s.th t).holding = true := by rw [hth]; rfl
      rw [show sysStep TTASLock.impl M t s =
            { s with th := Function.update s.th t (.store d s.counter) } from by
          simp [sysStep, hth]]
      refine ⟨fun x hx => ?_, fun x y hx hy => ?_⟩
      · exact hflag t hht
      · rcases update_holding_cases s.th t _ x hx with ⟨hxeq, -⟩ | ⟨hxt, hox⟩
        · rcases update_holding_cases s.th t _ y hy with ⟨hyeq, -⟩ | ⟨hyt, hoy⟩
          · rw [hxeq, hyeq]
          · rw [hxeq]
            exact (hmux y t hoy hht).symm
        · rcases update_holding_cases s.th t _ y hy with ⟨hyeq, -⟩ | ⟨hyt, hoy⟩
          · rw [hyeq]
            exact hmux x t hox hht
          · exact hmux x y hox hoy
  | store d tmp =>
      have hht : (s.th t).holding = true := by rw [hth]; rfl
      rw [show sysStep TTASLock.impl M t s =
            { s with counter := tmp + 1,
                     th := Function.update s.th t (.rel d TTASLock.impl.r0) } from by
          simp [sysStep, hth]]
      refine ⟨fun x hx => ?_, fun x y hx hy => ?_⟩
      · exact hflag t hht
      · rcases update_holding_cases s.th t _ x hx with ⟨hxeq, -⟩ | ⟨hxt, hox⟩
        · rcases update_holding_cases s.th t _ y hy with ⟨hyeq, -⟩ | ⟨hyt, hoy⟩
          · rw [hxeq, hyeq]
          · rw [hxeq]
            exact (hmux y t hoy hht).symm
        · rcases update_holding_cases s.th t _ y hy with ⟨hyeq, -⟩ | ⟨hyt, hoy⟩
          · rw [hyeq]
            exact hmux x t hox hht
          · exact hmux x y hox hoy
  | rel d r =>
      cases r
      have hht : (s.th t).holding = true := by rw [hth]; rfl
      rw [show sysStep TTASLock.impl M t s =
            { s with g := false,
                     th := Function.update s.th t
                       (if d + 1 < M then .acq (d + 1) TTASLock.impl.a0 else .fin) } from by
          by_cases hdM : d + 1 < M <;>
            simp [sysStep, hth, TTASLock.impl, TTASLock.relStep, hdM]]
      have hvnot : (if d + 1 < M then (ThreadSt.acq (d + 1) TTASLock.impl.a0 :
          ThreadSt TTASLock.impl.A TTASLock.impl.R) else .fin).holding = false := by
        by_cases hdM : d + 1 < M <;> simp [hdM, ThreadSt.holding]
      refine ⟨fun x hx => ?_, fun x y hx hy => ?_⟩
      · exfalso
        rcases update_holding_cases s.th t _ x hx with ⟨hxeq, hvx⟩ | ⟨hxt, hox⟩
        · rw [hvnot] at hvx
          cases hvx
        · exact hxt (hmux x t hox hht)
      · exfalso
        rcases update_holding_cases s.th t _ x hx with ⟨hxeq, hvx⟩ | ⟨hxt, hox⟩
        · rw [hvnot] at hvx
          cases hvx
        · exact hxt (hmux x t hox hht)

/-! ### MCS queue invariant: infrastructure -/

theorem lastOf_cons (p a : Nat) (l : List Nat) : lastOf p (a :: l) = lastOf a l := by
  cases l <;> simp [lastOf, List.getLastD]

theorem lastOf_concat (p c : Nat) (l : List Nat) : lastOf p (l ++ [c]) = c := by
  induction l generalizing p with
  | nil => rfl
  | cons a l ih => rw [List.cons_append, lastOf_cons]; exact ih a

theorem lastOf_mem (p : Nat) (l : List Nat) : lastOf p l ∈ p :: l := by
  induction l generalizing p with
  | nil => exact List.mem_singleton.mpr rfl
  | cons a l ih =>
      rw [lastOf_cons]
      rcases List.mem_cons.mp (ih a) with h | h
      · exact List.mem_cons.mpr (Or.inr (List.mem_cons.mpr (Or.inl h)))
      · exact List.mem_cons.mpr (Or.inr (List.mem_cons.mpr (Or.inr h)))

theorem dropLast_cons_cons (a b : Nat) (l : List Nat) :
    (a :: b :: l).dropLast = a :: (b :: l).dropLast := rfl

theorem LinkOK_frame (th th' : Nat → ThreadSt MCSAcq MCSRel)
    (nx nx' : Nat → Option Nat) (p c : Nat)
    (hth : th' c = th c) (hnx : nx' p = nx p) (h : LinkOK th nx p c) :
    LinkOK th' nx' p c := by
  unfold LinkOK at h ⊢
  rw [hth, hnx]
  exact h

theorem nonheadOK_frame (th th' : Nat → ThreadSt MCSAcq MCSRel)
    (nl nl' : Nat → Bool) (c : Nat)
    (hth : th' c = th c) (hnl : nl' c = nl c) (h : nonheadOK th nl c) :
    nonheadOK th' nl' c := by
  unfold nonheadOK at h ⊢
  rw [hth, hnl]
  exact h

theorem chainOK_frame (th th' : Nat → ThreadSt MCSAcq MCSRel)
    (nx nx' : Nat → Option Nat) (nl nl' : Nat → Bool) (p : Nat) (l : List Nat)
    (hth : ∀ c ∈ l, th' c = th c)
    (hnl : ∀ c ∈ l, nl' c = nl c)
    (hnx : ∀ x ∈ (p :: l).dropLast, nx' x = nx x)
    (h : chainOK th nx nl p l) : chainOK th' nx' nl' p l := by
  induction l generalizing p with
  | nil => trivial
  | cons c cs ih =>
      obtain ⟨hl, hnh, hch⟩ := h
      have hcmem : c ∈ c :: cs := List.mem_cons_self c cs
      refine ⟨?_, ?_, ?_⟩
      · refine LinkOK_frame th th' nx nx' p c (hth c hcmem) ?_ hl
        exact hnx p (by rw [dropLast_cons_cons]; exact List.mem_cons_self _ _)
      · exact nonheadOK_frame th th' nl nl' c (hth c hcmem) (hnl c hcmem) hnh
      · refine ih c (fun x hx => hth x (List.mem_cons_of_mem c hx))
          (fun x hx => hnl x (List.mem_cons_of_mem c hx)) ?_ hch
        intro x hx
        exact hnx x (by rw [dropLast_cons_cons]; exact List.mem_cons_of_mem _ hx)

theorem chainOK_decomp (th : Nat → ThreadSt MCSAcq MCSRel)
    (nx : Nat → Option Nat) (nl : Nat → Bool) (p c : Nat) (l1 l2 : List Nat) :
    chainOK th nx nl p (l1 ++ c :: l2) ↔
      (chainOK th nx nl p l1 ∧ LinkOK th nx (lastOf p l1) c ∧
        nonheadOK th nl c ∧ chainOK th nx nl c l2) := by
  induction l1 generalizing p with
  | nil =>
      simp [chainOK, lastOf]
  | cons a l1 ih =>
      simp only [List.cons_append, chainOK, lastOf_cons, List.append_eq]
      rw [ih a]
      tauto

theorem chainOK_concat (th : Nat → ThreadSt MCSAcq MCSRel)
    (nx : Nat → Option Nat) (nl : Nat → Bool) (p c : Nat) (l : List Nat) :
    chainOK th nx nl p (l ++ [c]) ↔
      (chainOK th nx nl p l ∧ LinkOK th nx (lastOf p l) c ∧ nonheadOK th nl c) := by
  rw [chainOK_decomp th nx nl p c l []]
  simp [chainOK]

theorem chainOK_nonhead (th : Nat → ThreadSt MCSAcq MCSRel)
    (nx : Nat → Option Nat) (nl : Nat → Bool) (p : Nat) (l : List Nat)
    (h : chainOK th nx nl p l) : ∀ c ∈ l, nonheadOK th nl c := by
  induction l generalizing p with
  | nil => intro c hc; cases hc
  | cons a l ih =>
      obtain ⟨-, hnh, hch⟩ := h
      intro c hc
      rcases List.mem_cons.mp hc with rfl | hc
      · exact hnh
      · exact ih a hch c hc

theorem nonhead_not_holding (th : Nat → ThreadSt MCSAcq MCSRel) (nl : Nat → Bool)
    (c : Nat) (h : nonheadOK th nl c) : (th c).holding = false := by
  rcases h.1 with ⟨d, p, he⟩ | ⟨d, he⟩ <;> rw [he] <;> rfl

theorem holding_queued (st : ThreadSt MCSAcq MCSRel) (h : st.holding = true) :
    queuedSt st = true := by
  cases st with
  | acq d a => simp [ThreadSt.holding] at h
  | load d => rfl
  | store d tmp => rfl
  | rel d r => rfl
  | fin => simp [ThreadSt.holding] at h

theorem MCSInv_mutex (s : SysState MCSLock.impl) (h : MCSInv s) :
    AtMostOneHolder s := by
  obtain ⟨q, hnd, hq, hmem, -, -, -⟩ := h
  intro x y hx hy
  have hxq : x ∈ q := (hmem x).mpr (holding_queued _ hx)
  have hyq : y ∈ q := (hmem y).mpr (holding_queued _ hy)
  cases q with
  | nil => cases hxq
  | cons hd rest =>
      obtain ⟨-, hch, -, -⟩ := hq
      have hx' : x = hd := by
        rcases List.mem_cons.mp hxq with h' | h'
        · exact h'
        · have := nonhead_not_holding s.th s.g.nlocked x
            (chainOK_nonhead _ _ _ _ _ hch x h')
          rw [hx] at this
          cases this
      have hy' : y = hd := by
        rcases List.mem_cons.mp hyq with h' | h'
        · exact h'
        · have := nonhead_not_holding s.th s.g.nlocked y
            (chainOK_nonhead _ _ _ _ _ hch y h')
          rw [hy] at this
          cases this
      rw [hx', hy']

theorem headOK_frame (th th' : Nat → ThreadSt MCSAcq MCSRel)
    (nl nl' : Nat → Bool) (c : Nat)
    (hth : th' c = th c) (hnl : nl' c = nl c) (h : headOK th nl c) :
    headOK th' nl' c := by
  unfold headOK at h ⊢
  rw [hth, hnl]
  exact h

theorem mem_of_mem_dropLast {l : List Nat} {x : Nat} (h : x ∈ l.dropLast) : x ∈ l := by
  induction l with
  | nil => cases h
  | cons a l ih =>
      cases l with
      | nil => cases h
      | cons b l =>
          rw [dropLast_cons_cons] at h
          rcases List.mem_cons.mp h with rfl | h
          · exact .head _
          · exact List.mem_cons_of_mem a (ih h)

theorem queueOK_frame (th th' : Nat → ThreadSt MCSAcq MCSRel)
    (nx nx' : Nat → Option Nat) (nl nl' : Nat → Bool)
    (tl tl' : Option Nat) (q : List Nat)
    (hth : ∀ c ∈ q, th' c = th c)
    (hnl : ∀ c ∈ q, nl' c = nl c)
    (hnx : ∀ c ∈ q, nx' c = nx c)
    (htl : tl' = tl)
    (h : queueOK th nx nl tl q) : queueOK th' nx' nl' tl' q := by
  cases q with
  | nil => rw [htl]; exact h
  | cons hd rest =>
      obtain ⟨hhd, hch, hlast, htl0⟩ := h
      have hhdm : hd ∈ hd :: rest := .head _
      refine ⟨headOK_frame th th' nl nl' hd (hth hd hhdm) (hnl hd hhdm) hhd, ?_, ?_, ?_⟩
      · refine chainOK_frame th th' nx nx' nl nl' hd rest
          (fun c hc => hth c (List.mem_cons_of_mem hd hc))
          (fun c hc => hnl c (List.mem_cons_of_mem hd hc))
          (fun x hx => hnx x (mem_of_mem_dropLast hx)) hch
      · rw [hnx (lastOf hd rest) (lastOf_mem hd rest)]
        exact hlast
      · rw [htl]
        exact htl0

theorem pendingOf_congr (th th' : Nat → ThreadSt MCSAcq MCSRel) (q : List Nat)
    (hth : ∀ c ∈ q, th' c = th c) : pendingOf th' q = pendingOf th q := by
  cases q with
  | nil => rfl
  | cons hd rest =>
      simp only [pendingOf]
      rw [hth hd (.head _)]

theorem mcs_pres_start (s : SysState MCSLock.impl) (t d : Nat)
    (hth : s.th t = .acq d .start) (h : MCSInv s) :
    MCSInv { s with
      g := { s.g with next := Function.update s.g.next t none,
                      nlocked := Function.update s.g.nlocked t true },
      th := Function.update s.th t (.acq d .swap) } := by
  obtain ⟨q, hnd, hq, hmem, hswap, hsig, hlog⟩ := h
  have htq : t ∉ q := by
    intro hcontra
    have hx := (hmem t).mp hcontra
    rw [hth] at hx
    cases hx
  have hne : ∀ c ∈ q, c ≠ t := fun c hc hceq => htq (hceq ▸ hc)
  refine ⟨q, hnd, ?_, ?_, ?_, ?_, ?_⟩
  · dsimp only
    refine queueOK_frame s.th _ s.g.next _ s.g.nlocked _ s.g.tail _ q
      (fun c hc => Function.update_noteq (hne c hc) _ s.th)
      (fun c hc => Function.update_noteq (hne c hc) _ s.g.nlocked)
      (fun c hc => Function.update_noteq (hne c hc) _ s.g.next)
      rfl hq
  · intro x
    dsimp only
    rcases eq_or_ne x t with rfl | hx
    · rw [Function.update_same]
      constructor
      · intro hc; exact absurd hc htq
      · intro hc; cases hc
    · rw [Function.update_noteq hx]
      exact hmem x
  · intro x d' hx
    dsimp only at hx ⊢
    rcases eq_or_ne x t with rfl | hxne
    · rw [Function.update_same, Function.update_same]
      exact ⟨rfl, rfl⟩
    · rw [Function.update_noteq hxne] at hx
      rw [Function.update_noteq hxne, Function.update_noteq hxne]
      exact hswap x d' hx
  · intro x d' sc hx
    dsimp only at hx ⊢
    rcases eq_or_ne x t with rfl | hxne
    · rw [Function.update_same] at hx
      cases hx
    · rw [Function.update_noteq hxne] at hx
      rw [Function.update_noteq hxne]
      exact hsig x d' sc hx
  · dsimp only
    rw [pendingOf_congr s.th _ q
      (fun c hc => Function.update_noteq (hne c hc) _ s.th)]
    exact hlog

theorem swapsOf_append (l1 l2 : List MCSEvent) :
    swapsOf (l1 ++ l2) = swapsOf l1 ++ swapsOf l2 := by
  simp [swapsOf, List.filterMap_append]

theorem entersOf_append (l1 l2 : List MCSEvent) :
    entersOf (l1 ++ l2) = entersOf l1 ++ entersOf l2 := by
  simp [entersOf, List.filterMap_append]

theorem mcs_pres_swap_none (s : SysState MCSLock.impl) (t d : Nat)
    (hth : s.th t = .acq d .swap) (htail : s.g.tail = none) (h : MCSInv s) :
    MCSInv { s with
      g := { s.g with tail := some t, log := s.g.log ++ [.swapEv t, .enterEv t] },
      th := Function.update s.th t (.load d) } := by
  obtain ⟨q, hnd, hq, hmem, hswap, hsig, hlog⟩ := h
  have hq0 : q = [] := by
    cases q with
    | nil => rfl
    | cons hd rest =>
        obtain ⟨-, -, -, htl⟩ := hq
        rw [htail] at htl
        cases htl
  subst hq0
  obtain ⟨hnxt, hnlt⟩ := hswap t d hth
  refine ⟨[t], List.nodup_singleton t, ?_, ?_, ?_, ?_, ?_⟩
  · refine ⟨?_, trivial, ?_, rfl⟩
    · left
      dsimp only
      rw [Function.update_same]
      rfl
    · exact hnxt
  · intro x
    dsimp only
    rcases eq_or_ne x t with rfl | hx
    · rw [Function.update_same]
      simp [queuedSt]
    · rw [Function.update_noteq hx]
      constructor
      · intro hc
        exact absurd (List.mem_singleton.mp hc) hx
      · intro hc
        exact absurd ((hmem x).mpr hc) (List.not_mem_nil x)
  · intro x d' hx
    dsimp only at hx ⊢
    rcases eq_or_ne x t with rfl | hxne
    · rw [Function.update_same] at hx
      cases hx
    · rw [Function.update_noteq hxne] at hx
      exact hswap x d' hx
  · intro x d' sc hx
    dsimp only at hx ⊢
    rcases eq_or_ne x t with rfl | hxne
    · rw [Function.update_same] at hx
      cases hx
    · rw [Function.update_noteq hxne] at hx
      exact hsig x d' sc hx
  · dsimp only
    rw [swapsOf_append, entersOf_append]
    have hp' : pendingOf (Function.update s.th t (.load d)) [t] = [] := by
      simp only [pendingOf]
      rw [Function.update_same]
      rfl
    rw [hp']
    have : pendingOf s.th ([] : List Nat) = [] := rfl
    rw [this] at hlog
    rw [show swapsOf [.swapEv t, .enterEv t] = [t] from rfl,
        show entersOf [.swapEv t, .enterEv t] = [t] from rfl]
    simp [hlog]

theorem mcs_pres_swap_some (s : SysState MCSLock.impl) (t d p : Nat)
    (hth : s.th t = .acq d .swap) (htail : s.g.tail = some p) (h : MCSInv s) :
    MCSInv { s with
      g := { s.g with tail := some t, log := s.g.log ++ [.swapEv t] },
      th := Function.update s.th t (.acq d (.linkpred p)) } := by
  obtain ⟨q, hnd, hq, hmem, hswap, hsig, hlog⟩ := h
  have htq : t ∉ q := by
    intro hcontra
    have hx := (hmem t).mp hcontra
    rw [hth] at hx
    cases hx
  obtain ⟨hnxt, hnlt⟩ := hswap t d hth
  cases q with
  | nil =>
      have htl : s.g.tail = none := hq
      rw [htail] at htl
      cases htl
  | cons hd rest =>
      obtain ⟨hhd, hch, hlast, htl⟩ := hq
      have hp : p = lastOf hd rest := by
        rw [htail] at htl
        exact Option.some_injective _ htl
      have hne : ∀ c ∈ hd :: rest, c ≠ t := fun c hc hceq => htq (hceq ▸ hc)
      have hndt : t ∉ rest := fun hc => htq (List.mem_cons_of_mem hd hc)
      refine ⟨hd :: (rest ++ [t]), ?_, ?_, ?_, ?_, ?_, ?_⟩
      · rw [show hd :: (rest ++ [t]) = (hd :: rest) ++ [t] from rfl, List.nodup_append]
        exact ⟨hnd, List.nodup_singleton t,
          fun a ha hb => absurd (List.mem_singleton.mp hb ▸ ha) htq⟩
      · refine ⟨?_, ?_, ?_, ?_⟩
        · exact headOK_frame s.th _ s.g.nlocked _ hd
            (Function.update_noteq (hne hd (.head _)) _ s.th) rfl hhd
        · rw [chainOK_concat]
          refine ⟨?_, ?_, ?_⟩
          · exact chainOK_frame s.th _ s.g.next _ s.g.nlocked _ hd rest
              (fun c hc => Function.update_noteq (hne c (List.mem_cons_of_mem hd hc)) _ s.th)
              (fun _ _ => rfl) (fun _ _ => rfl) hch
          · unfold LinkOK
            dsimp only
            rw [Function.update_same]
            exact ⟨hp, hlast⟩
          · refine ⟨Or.inl ⟨d, p, ?_⟩, hnlt⟩
            dsimp only
            exact Function.update_same t _ s.th
        · dsimp only
          rw [lastOf_concat]
          exact hnxt
        · dsimp only
          rw [lastOf_concat]
      · intro x
        dsimp only
        rcases eq_or_ne x t with rfl | hx
        · rw [Function.update_same]
          simp [queuedSt]
        · rw [Function.update_noteq hx]
          rw [show hd :: (rest ++ [t]) = (hd :: rest) ++ [t] from rfl, List.mem_append]
          constructor
          · intro hc
            rcases hc with hc | hc
            · exact (hmem x).mp hc
            · exact absurd (List.mem_singleton.mp hc) hx
          · intro hc
            exact Or.inl ((hmem x).mpr hc)
      · intro x d' hx
        dsimp only at hx ⊢
        rcases eq_or_ne x t with rfl | hxne
        · rw [Function.update_same] at hx
          cases hx
        · rw [Function.update_noteq hxne] at hx
          exact hswap x d' hx
      · intro x d' sc hx
        dsimp only at hx ⊢
        rcases eq_or_ne x t with rfl | hxne
        · rw [Function.update_same] at hx
          cases hx
        · rw [Function.update_noteq hxne] at hx
          exact hsig x d' sc hx
      · dsimp only
        rw [swapsOf_append, entersOf_append,
            show swapsOf [MCSEvent.swapEv t] = [t] from rfl,
            show entersOf [MCSEvent.swapEv t] = [] from rfl, List.append_nil]
        have hhd' : Function.update s.th t (.acq d (.linkpred p)) hd = s.th hd :=
          Function.update_noteq (hne hd (.head _)) _ s.th
        simp only [pendingOf, hhd'] at hlog ⊢
        by_cases hold : (s.th hd).holding = true
        · rw [if_pos hold] at hlog ⊢
          rw [hlog]
          simp
        · rw [if_neg hold] at hlog ⊢
          rw [hlog]
          simp

theorem lastOf_not_mem_dropLast (a : Nat) (l : List Nat) (h : (a :: l).Nodup) :
    lastOf a l ∉ (a :: l).dropLast := by
  induction l generalizing a with
  | nil => simp [lastOf]
  | cons b l ih =>
      rw [lastOf_cons, dropLast_cons_cons]
      intro hc
      rcases List.mem_cons.mp hc with heq | hc'
      · have hmem : lastOf b l ∈ b :: l := lastOf_mem b l
        rw [heq] at hmem
        exact (List.nodup_cons.mp h).1 hmem
      · exact ih b (List.nodup_cons.mp h).2 hc'

theorem lastOf_append_cons (p c : Nat) (l1 l2 : List Nat) :
    lastOf p (l1 ++ c :: l2) = lastOf c l2 := by
  induction l1 generalizing p with
  | nil => exact lastOf_cons p c l2
  | cons a l1 ih => rw [List.cons_append, lastOf_cons]; exact ih a

theorem pendingOf_cons_congr (th th' : Nat → ThreadSt MCSAcq MCSRel)
    (hd : Nat) (rest : List Nat) (hhd : th' hd = th hd) :
    pendingOf th' (hd :: rest) = pendingOf th (hd :: rest) := by
  simp only [pendingOf, hhd]

theorem mcs_pres_linkpred (s : SysState MCSLock.impl) (t d p : Nat)
    (hth : s.th t = .acq d (.linkpred p)) (h : MCSInv s) :
    MCSInv { s with
      g := { s.g with next := Function.update s.g.next p (some t) },
      th := Function.update s.th t (.acq d .spin) } := by
  obtain ⟨q, hnd, hq, hmem, hswap, hsig, hlog⟩ := h
  have htq : t ∈ q := (hmem t).mpr (by rw [hth]; rfl)
  cases q with
  | nil => cases htq
  | cons hd rest =>
      obtain ⟨hhd, hch, hlast, htl⟩ := hq
      have hthd : t ≠ hd := by
        intro heq
        rcases hhd with hHold | ⟨⟨d', hspin⟩, -⟩
        · rw [← heq, hth] at hHold
          cases hHold
        · rw [← heq, hth] at hspin
          cases hspin
      have htrest : t ∈ rest := by
        rcases List.mem_cons.mp htq with heq | hm
        · exact absurd heq hthd
        · exact hm
      obtain ⟨l1, l2, hrest⟩ := List.append_of_mem htrest
      subst hrest
      -- nodup bookkeeping
      have hndq : ((hd :: l1) ++ (t :: l2)).Nodup := hnd
      rw [List.nodup_append] at hndq
      obtain ⟨hnd1, hnd2, hdisj⟩ := hndq
      have htl1 : t ∉ l1 := fun hc =>
        hdisj (List.mem_cons_of_mem hd hc) (.head _)
      have htl2 : t ∉ l2 := (List.nodup_cons.mp hnd2).1
      -- decompose the chain at t
      rw [chainOK_decomp] at hch
      obtain ⟨hch1, hlink, hnht, hch2⟩ := hch
      have hplp : linkpredOf (s.th t) = some p := by rw [hth]; rfl
      unfold LinkOK at hlink
      rw [hplp] at hlink
      obtain ⟨hpeq, hpnone⟩ := hlink
      -- p is the last of hd :: l1
      have hpmem : p ∈ hd :: l1 := by rw [hpeq]; exact lastOf_mem hd l1
      have hpnotr : p ∉ t :: l2 := fun hc => hdisj hpmem hc
      refine ⟨hd :: (l1 ++ t :: l2), hnd, ?_, ?_, ?_, ?_, ?_⟩
      · refine ⟨?_, ?_, ?_, ?_⟩
        · exact headOK_frame s.th _ s.g.nlocked _ hd
            (Function.update_noteq (Ne.symm hthd) _ s.th) rfl hhd
        · dsimp only
          rw [chainOK_decomp]
          refine ⟨?_, ?_, ?_, ?_⟩
          · refine chainOK_frame s.th _ s.g.next _ s.g.nlocked _ hd l1
              (fun c hc => Function.update_noteq
                (fun hce => htl1 (by rw [← hce]; exact hc)) _ s.th)
              (fun _ _ => rfl) ?_ hch1
            intro x hx
            have hxnep : x ≠ p := by
              intro hxe
              rw [hxe, hpeq] at hx
              exact lastOf_not_mem_dropLast hd l1 hnd1 hx
            exact Function.update_noteq hxnep _ s.g.next
          · unfold LinkOK
            rw [Function.update_same]
            show Function.update s.g.next p (some t) (lastOf hd l1) = some t
            rw [← hpeq, Function.update_same]
          · refine ⟨Or.inr ⟨d, ?_⟩, hnht.2⟩
            exact Function.update_same t _ s.th
          · refine chainOK_frame s.th _ s.g.next _ s.g.nlocked _ t l2
              (fun c hc => Function.update_noteq
                (fun hce => htl2 (by rw [← hce]; exact hc)) _ s.th)
              (fun _ _ => rfl) ?_ hch2
            intro x hx
            have hxnep : x ≠ p := fun hxe =>
              hpnotr (hxe ▸ mem_of_mem_dropLast hx)
            exact Function.update_noteq hxnep _ s.g.next
        · dsimp only
          rw [lastOf_append_cons] at hlast ⊢
          have hnep : lastOf t l2 ≠ p := fun hxe => hpnotr (hxe ▸ lastOf_mem t l2)
          rw [Function.update_noteq hnep _ s.g.next]
          exact hlast
        · dsimp only
          rw [lastOf_append_cons] at htl ⊢
          exact htl
      · intro x
        dsimp only
        rcases eq_or_ne x t with rfl | hx
        · rw [Function.update_same]
          constructor
          · intro _
            rfl
          · intro _
            exact htq
        · rw [Function.update_noteq hx]
          exact hmem x
      · intro x d' hx
        dsimp only at hx ⊢
        have hpinq : p ∈ hd :: (l1 ++ t :: l2) := by
          rcases List.mem_cons.mp hpmem with heq | hm
          · exact heq ▸ List.mem_cons_self hd _
          · exact List.mem_cons_of_mem hd (List.mem_append.mpr (Or.inl hm))
        rcases eq_or_ne x t with rfl | hxne
        · rw [Function.update_same] at hx
          cases hx
        · rw [Function.update_noteq hxne] at hx
          have hxq : x ∉ hd :: (l1 ++ t :: l2) := by
            intro hc
            have hqd := (hmem x).mp hc
            rw [hx] at hqd
            cases hqd
          have hxnep : x ≠ p := fun hxe => hxq (hxe ▸ hpinq)
          rw [Function.update_noteq hxnep _ s.g.next]
          exact hswap x d' hx
      · intro x d' sc hx
        dsimp only at hx ⊢
        rcases eq_or_ne x t with rfl | hxne
        · rw [Function.update_same] at hx
          cases hx
        · rw [Function.update_noteq hxne] at hx
          rcases eq_or_ne x p with hxe | hxnep
          · have h1 : s.g.next x = some sc := hsig x d' sc hx
            rw [hxe, hpeq] at h1
            exact Option.noConfusion (hpnone.symm.trans h1)
          · rw [Function.update_noteq hxnep _ s.g.next]
            exact hsig x d' sc hx
      · dsimp only
        rw [pendingOf_cons_congr s.th _ hd (l1 ++ t :: l2)
          (Function.update_noteq (Ne.symm hthd) _ s.th)]
        exact hlog

theorem lastOf_mem_of_ne_nil (p : Nat) (l : List Nat) (h : l ≠ []) :
    lastOf p l ∈ l := by
  cases l with
  | nil => exact absurd rfl h
  | cons a l => rw [lastOf_cons]; exact lastOf_mem a l

theorem head_of_queue (s : SysState MCSLock.impl) (t hd : Nat) (rest : List Nat)
    (hch : chainOK s.th s.g.next s.g.nlocked hd rest)
    (hmm : t ∈ hd :: rest)
    (hnh : ∀ h', nonheadOK s.th s.g.nlocked t → h' = t → False) : t = hd := by
  rcases List.mem_cons.mp hmm with heq | hm
  · exact heq
  · exact absurd rfl (hnh t (chainOK_nonhead _ _ _ _ _ hch t hm))

theorem mcs_pres_spin_exit (s : SysState MCSLock.impl) (t d : Nat)
    (hth : s.th t = .acq d .spin) (hnl : s.g.nlocked t = false) (h : MCSInv s) :
    MCSInv { s with
      g := { s.g with log := s.g.log ++ [.enterEv t] },
      th := Function.update s.th t (.load d) } := by
  obtain ⟨q, hnd, hq, hmem, hswap, hsig, hlog⟩ := h
  have htq : t ∈ q := (hmem t).mpr (by rw [hth]; rfl)
  cases q with
  | nil => cases htq
  | cons hd rest =>
      obtain ⟨hhd, hch, hlast, htl⟩ := hq
      have hthd : t = hd := by
        rcases List.mem_cons.mp htq with heq | hm
        · exact heq
        · have := (chainOK_nonhead _ _ _ _ _ hch t hm).2
          rw [hnl] at this
          cases this
      subst hthd
      have htrest : t ∉ rest := (List.nodup_cons.mp hnd).1
      refine ⟨t :: rest, hnd, ?_, ?_, ?_, ?_, ?_⟩
      · refine ⟨?_, ?_, ?_, ?_⟩
        · left
          dsimp only
          rw [Function.update_same]
          rfl
        · exact chainOK_frame s.th _ s.g.next _ s.g.nlocked _ t rest
            (fun c hc => Function.update_noteq
              (fun hce => htrest (by rw [← hce]; exact hc)) _ s.th)
            (fun _ _ => rfl) (fun _ _ => rfl) hch
        · exact hlast
        · exact htl
      · intro x
        dsimp only
        rcases eq_or_ne x t with rfl | hx
        · rw [Function.update_same]
          constructor
          · intro _
            rfl
          · intro _
            exact htq
        · rw [Function.update_noteq hx]
          exact hmem x
      · intro x d' hx
        dsimp only at hx ⊢
        rcases eq_or_ne x t with rfl | hxne
        · rw [Function.update_same] at hx
          cases hx
        · rw [Function.update_noteq hxne] at hx
          exact hswap x d' hx
      · intro x d' sc hx
        dsimp only at hx ⊢
        rcases eq_or_ne x t with rfl | hxne
        · rw [Function.update_same] at hx
          cases hx
        · rw [Function.update_noteq hxne] at hx
          exact hsig x d' sc hx
      · dsimp only
        rw [swapsOf_append, entersOf_append,
            show swapsOf [MCSEvent.enterEv t] = [] from rfl,
            show entersOf [MCSEvent.enterEv t] = [t] from rfl, List.append_nil]
        have hpold : pendingOf s.th (t :: rest) = t :: rest := by
          simp only [pendingOf]
          rw [if_neg (by rw [hth]; simp [ThreadSt.holding])]
        have hpnew : pendingOf (Function.update s.th t (.load d)) (t :: rest) = rest := by
          simp only [pendingOf]
          rw [Function.update_same]
          simp [ThreadSt.holding]
        rw [hpnew]
        rw [hpold] at hlog
        rw [hlog]
        simp

theorem mcs_pres_head_step (s : SysState MCSLock.impl) (t : Nat)
    (v : ThreadSt MCSAcq MCSRel) (c' : Nat)
    (hold : (s.th t).holding = true) (hvhold : v.holding = true)
    (hsigv : ∀ d sc, v = .rel d (.signal sc) → s.g.next t = some sc)
    (h : MCSInv s) :
    MCSInv { s with counter := c', th := Function.update s.th t v } := by
  obtain ⟨q, hnd, hq, hmem, hswap, hsig, hlog⟩ := h
  have htq : t ∈ q := (hmem t).mpr (holding_queued _ hold)
  cases q with
  | nil => cases htq
  | cons hd rest =>
      obtain ⟨hhd, hch, hlast, htl⟩ := hq
      have hthd : t = hd := by
        rcases List.mem_cons.mp htq with heq | hm
        · exact heq
        · have := nonhead_not_holding s.th s.g.nlocked t
            (chainOK_nonhead _ _ _ _ _ hch t hm)
          rw [hold] at this
          cases this
      subst hthd
      have htrest : t ∉ rest := (List.nodup_cons.mp hnd).1
      refine ⟨t :: rest, hnd, ?_, ?_, ?_, ?_, ?_⟩
      · refine ⟨?_, ?_, ?_, ?_⟩
        · left
          dsimp only
          rw [Function.update_same]
          exact hvhold
        · exact chainOK_frame s.th _ s.g.next _ s.g.nlocked _ t rest
            (fun c hc => Function.update_noteq
              (fun hce => htrest (by rw [← hce]; exact hc)) _ s.th)
            (fun _ _ => rfl) (fun _ _ => rfl) hch
        · exact hlast
        · exact htl
      · intro x
        dsimp only
        rcases eq_or_ne x t with rfl | hx
        · rw [Function.update_same]
          constructor
          · intro _
            exact holding_queued v hvhold
          · intro _
            exact htq
        · rw [Function.update_noteq hx]
          exact hmem x
      · intro x d' hx
        dsimp only at hx ⊢
        rcases eq_or_ne x t with rfl | hxne
        · rw [Function.update_same] at hx
          rw [hx] at hvhold
          cases hvhold
        · rw [Function.update_noteq hxne] at hx
          exact hswap x d' hx
      · intro x d' sc hx
        dsimp only at hx ⊢
        rcases eq_or_ne x t with rfl | hxne
        · rw [Function.update_same] at hx
          exact hsigv d' sc hx
        · rw [Function.update_noteq hxne] at hx
          exact hsig x d' sc hx
      · dsimp only
        have hpold : pendingOf s.th (t :: rest) = rest := by
          simp only [pendingOf]
          rw [if_pos hold]
        have hpnew : pendingOf (Function.update s.th t v) (t :: rest) = rest := by
          simp only [pendingOf]
          rw [Function.update_same, if_pos hvhold]
        rw [hpnew]
        rw [hpold] at hlog
        exact hlog

theorem mcs_pres_cas_success (s : SysState MCSLock.impl) (t d : Nat)
    (hth : s.th t = .rel d .casTail) (htail : s.g.tail = some t)
    (v : ThreadSt MCSAcq MCSRel)
    (hv : v = .acq (d + 1) .start ∨ v = .fin) (h : MCSInv s) :
    MCSInv { s with
      g := { s.g with tail := none },
      th := Function.update s.th t v } := by
  obtain ⟨q, hnd, hq, hmem, hswap, hsig, hlog⟩ := h
  have hold : (s.th t).holding = true := by rw [hth]; rfl
  have htq : t ∈ q := (hmem t).mpr (holding_queued _ hold)
  cases q with
  | nil => cases htq
  | cons hd rest =>
      obtain ⟨hhd, hch, hlast, htl⟩ := hq
      have hthd : t = hd := by
        rcases List.mem_cons.mp htq with heq | hm
        · exact heq
        · have := nonhead_not_holding s.th s.g.nlocked t
            (chainOK_nonhead _ _ _ _ _ hch t hm)
          rw [hold] at this
          cases this
      subst hthd
      have htrest : t ∉ rest := (List.nodup_cons.mp hnd).1
      have hrest0 : rest = [] := by
        cases hr : rest with
        | nil => rfl
        | cons c cs =>
            exfalso
            have hlm : lastOf t rest ∈ rest := by
              rw [hr]
              exact lastOf_mem_of_ne_nil t (c :: cs) (by simp)
            rw [htail] at htl
            have hle : t = lastOf t rest := Option.some_injective _ htl
            rw [← hle] at hlm
            exact htrest hlm
      subst hrest0
      have hvnots : queuedSt v = false := by
        rcases hv with rfl | rfl <;> rfl
      refine ⟨[], List.nodup_nil, rfl, ?_, ?_, ?_, ?_⟩
      · intro x
        dsimp only
        constructor
        · intro hc
          cases hc
        · intro hc
          exfalso
          rcases eq_or_ne x t with rfl | hx
          · rw [Function.update_same] at hc
            rw [hvnots] at hc
            cases hc
          · rw [Function.update_noteq hx] at hc
            have := (hmem x).mpr hc
            rcases List.mem_singleton.mp this with rfl
            exact hx rfl
      · intro x d' hx
        dsimp only at hx ⊢
        rcases eq_or_ne x t with rfl | hxne
        · rw [Function.update_same] at hx
          rcases hv with rfl | rfl <;> cases hx
        · rw [Function.update_noteq hxne] at hx
          exact hswap x d' hx
      · intro x d' sc hx
        dsimp only at hx ⊢
        rcases eq_or_ne x t with rfl | hxne
        · rw [Function.update_same] at hx
          rcases hv with rfl | rfl <;> cases hx
        · rw [Function.update_noteq hxne] at hx
          exact hsig x d' sc hx
      · dsimp only
        have hpold : pendingOf s.th [t] = [] := by
          simp only [pendingOf]
          rw [if_pos hold]
        have hpnew : pendingOf (Function.update s.th t v) ([] : List Nat) = [] := rfl
        rw [hpnew]
        rw [hpold] at hlog
        exact hlog

theorem mcs_pres_signal (s : SysState MCSLock.impl) (t d sc : Nat)
    (hth : s.th t = .rel d (.signal sc))
    (v : ThreadSt MCSAcq MCSRel)
    (hv : v = .acq (d + 1) .start ∨ v = .fin) (h : MCSInv s) :
    MCSInv { s with
      g := { s.g with nlocked := Function.update s.g.nlocked sc false },
      th := Function.update s.th t v } := by
  obtain ⟨q, hnd, hq, hmem, hswap, hsig, hlog⟩ := h
  have hold : (s.th t).holding = true := by rw [hth]; rfl
  have htq : t ∈ q := (hmem t).mpr (holding_queued _ hold)
  have hnxt : s.g.next t = some sc := hsig t d sc hth
  cases q with
  | nil => cases htq
  | cons hd rest =>
      obtain ⟨hhd, hch, hlast, htl⟩ := hq
      have hthd : t = hd := by
        rcases List.mem_cons.mp htq with heq | hm
        · exact heq
        · have := nonhead_not_holding s.th s.g.nlocked t
            (chainOK_nonhead _ _ _ _ _ hch t hm)
          rw [hold] at this
          cases this
      subst hthd
      have htrest : t ∉ rest := (List.nodup_cons.mp hnd).1
      cases rest with
      | nil =>
          exfalso
          have : s.g.next t = none := by
            have := hlast
            simp only [lastOf, List.getLastD] at this
            exact this
          rw [hnxt] at this
          cases this
      | cons c cs =>
          obtain ⟨hlk, hnhc, hchc⟩ := hch
          -- the successor constraint: since next t is non-null, c has linked
          have hlpc : linkpredOf (s.th c) = none := by
            cases hcase : linkpredOf (s.th c) with
            | none => rfl
            | some p' =>
                exfalso
                unfold LinkOK at hlk
                rw [hcase] at hlk
                rw [hlk.2] at hnxt
                cases hnxt
          have hceq : c = sc := by
            unfold LinkOK at hlk
            rw [hlpc] at hlk
            rw [hlk] at hnxt
            exact Option.some_injective _ hnxt
          subst hceq
          have hcspin : ∃ d'', s.th c = .acq d'' .spin := by
            rcases hnhc.1 with ⟨d'', p'', hl⟩ | hspin
            · exfalso
              rw [hl] at hlpc
              cases hlpc
            · exact hspin
          obtain ⟨dsc, hscspin⟩ := hcspin
          have htsc : t ≠ c := by
            intro heq
            exact htrest (heq ▸ List.mem_cons_self c cs)
          have hsccs : c ∉ cs := (List.nodup_cons.mp (List.nodup_cons.mp hnd).2).1
          have htcs : t ∉ cs := fun hc => htrest (List.mem_cons_of_mem c hc)
          have hvnots : queuedSt v = false := by
            rcases hv with rfl | rfl <;> rfl
          refine ⟨c :: cs, (List.nodup_cons.mp hnd).2, ?_, ?_, ?_, ?_, ?_⟩
          · refine ⟨?_, ?_, ?_, ?_⟩
            · right
              dsimp only
              refine ⟨⟨dsc, ?_⟩, ?_⟩
              · rw [Function.update_noteq (Ne.symm htsc) _ s.th]
                exact hscspin
              · exact Function.update_same c _ s.g.nlocked
            · exact chainOK_frame s.th _ s.g.next _ s.g.nlocked _ c cs
                (fun x hx => Function.update_noteq
                  (fun hce => htcs (by rw [← hce]; exact hx)) _ s.th)
                (fun x hx => Function.update_noteq
                  (fun hce => hsccs (by rw [← hce]; exact hx)) _ s.g.nlocked)
                (fun _ _ => rfl) hchc
            · dsimp only
              rw [lastOf_cons] at hlast
              exact hlast
            · dsimp only
              rw [lastOf_cons] at htl
              exact htl
          · intro x
            dsimp only
            rcases eq_or_ne x t with rfl | hx
            · rw [Function.update_same]
              rw [hvnots]
              constructor
              · intro hc
                exact absurd hc htrest
              · intro hc
                cases hc
            · rw [Function.update_noteq hx]
              rw [← hmem x]
              constructor
              · intro hc
                exact List.mem_cons_of_mem t hc
              · intro hc
                rcases List.mem_cons.mp hc with heq | hm
                · exact absurd heq hx
                · exact hm
          · intro x d' hx
            dsimp only at hx ⊢
            rcases eq_or_ne x t with rfl | hxne
            · rw [Function.update_same] at hx
              rcases hv with rfl | rfl <;> cases hx
            · rw [Function.update_noteq hxne] at hx
              have hxnsc : x ≠ c := by
                intro heq
                rw [heq, hscspin] at hx
                cases hx
              rw [Function.update_noteq hxnsc _ s.g.nlocked]
              exact hswap x d' hx
          · intro x d' sc' hx
            dsimp only at hx ⊢
            rcases eq_or_ne x t with rfl | hxne
            · rw [Function.update_same] at hx
              rcases hv with rfl | rfl <;> cases hx
            · rw [Function.update_noteq hxne] at hx
              exact hsig x d' sc' hx
          · dsimp only
            have hpold : pendingOf s.th (t :: c :: cs) = c :: cs := by
              simp only [pendingOf]
              rw [if_pos hold]
            have hpnew : pendingOf (Function.update s.th t v) (c :: cs) = c :: cs := by
              simp only [pendingOf]
              rw [Function.update_noteq (Ne.symm htsc) _ s.th,
                  if_neg (by rw [hscspin]; simp [ThreadSt.holding])]
            rw [hpnew]
            rw [hpold] at hlog
            exact hlog

theorem MCSInv_init (n M : Nat) : MCSInv (sysInit MCSLock.impl n M) := by
  refine ⟨[], List.nodup_nil, rfl, ?_, ?_, ?_, rfl⟩
  · intro x
    constructor
    · intro hc
      cases hc
    · intro hc
      by_cases hcase : x < n ∧ 0 < M
      · simp [sysInit, hcase, queuedSt, MCSLock.impl] at hc
      · simp [sysInit, hcase, queuedSt, MCSLock.impl] at hc
  · intro x d hx
    by_cases hcase : x < n ∧ 0 < M
    · simp [sysInit, hcase, MCSLock.impl] at hx
    · simp [sysInit, hcase, MCSLock.impl] at hx
  · intro x d sc hx
    by_cases hcase : x < n ∧ 0 < M
    · simp [sysInit, hcase, MCSLock.impl] at hx
    · simp [sysInit, hcase, MCSLock.impl] at hx

theorem MCSInv_step (M t : Nat) (s : SysState MCSLock.impl) (h : MCSInv s) :
    MCSInv (sysStep MCSLock.impl M t s) := by
  cases hth : s.th t with
  | fin =>
      rw [show sysStep MCSLock.impl M t s = s from by simp [sysStep, hth]]
      exact h
  | acq d a =>
      cases a with
      | start =>
          rw [show sysStep MCSLock.impl M t s = { s with
              g := { s.g with next := Function.update s.g.next t none,
                              nlocked := Function.update s.g.nlocked t true },
              th := Function.update s.th t (.acq d .swap) } from by
            simp [sysStep, hth, MCSLock.impl, MCSLock.acqStep]]
          exact mcs_pres_start s t d hth h
      | swap =>
          cases htail : s.g.tail with
          | none =>
              rw [show sysStep MCSLock.impl M t s = { s with
                  g := { s.g with tail := some t,
                                  log := s.g.log ++ [.swapEv t, .enterEv t] },
                  th := Function.update s.th t (.load d) } from by
                simp [sysStep, hth, MCSLock.impl, MCSLock.acqStep, htail]]
              exact mcs_pres_swap_none s t d hth htail h
          | some p =>
              rw [show sysStep MCSLock.impl M t s = { s with
                  g := { s.g with tail := some t, log := s.g.log ++ [.swapEv t] },
                  th := Function.update s.th t (.acq d (.linkpred p)) } from by
                simp [sysStep, hth, MCSLock.impl, MCSLock.acqStep, htail]]
              exact mcs_pres_swap_some s t d p hth htail h
      | linkpred p =>
          rw [show sysStep MCSLock.impl M t s = { s with
              g := { s.g with next := Function.update s.g.next p (some t) },
              th := Function.update s.th t (.acq d .spin) } from by
            simp [sysStep, hth, MCSLock.impl, MCSLock.acqStep]]
          exact mcs_pres_linkpred s t d p hth h
      | spin =>
          cases hnl : s.g.nlocked t with
          | false =>
              rw [show sysStep MCSLock.impl M t s = { s with
                  g := { s.g with log := s.g.log ++ [.enterEv t] },
                  th := Function.update s.th t (.load d) } from by
                simp [sysStep, hth, MCSLock.impl, MCSLock.acqStep, hnl]]
              exact mcs_pres_spin_exit s t d hth hnl h
          | true =>
              have hupd : Function.update s.th t (ThreadSt.acq d MCSAcq.spin) = s.th := by
                rw [← hth]
                exact Function.update_eq_self t s.th
              rw [show sysStep MCSLock.impl M t s = s from by
                simp [sysStep, hth, MCSLock.impl, MCSLock.acqStep, hnl, hupd]
                rfl]
              exact h
  | load d =>
      rw [show sysStep MCSLock.impl M t s =
          { s with th := Function.update s.th t (.store d s.counter) } from by
        simp [sysStep, hth]]
      exact mcs_pres_head_step s t (.store d s.counter) s.counter
        (by rw [hth]; rfl) rfl (by intro d' sc hv; cases hv) h
  | store d tmp =>
      rw [show sysStep MCSLock.impl M t s =
          { s with counter := tmp + 1,
                   th := Function.update s.th t (.rel d .readNext) } from by
        simp [sysStep, hth, MCSLock.impl]]
      exact mcs_pres_head_step s t (.rel d .readNext) (tmp + 1)
        (by rw [hth]; rfl) rfl
        (by intro d' sc hv; injection hv with h1 h2; cases h2) h
  | rel d r =>
      cases r with
      | readNext =>
          cases hnx : s.g.next t with
          | none =>
              rw [show sysStep MCSLock.impl M t s =
                  { s with th := Function.update s.th t (.rel d .casTail) } from by
                simp [sysStep, hth, MCSLock.impl, MCSLock.relStep, hnx]]
              exact mcs_pres_head_step s t (.rel d .casTail) s.counter
                (by rw [hth]; rfl) rfl
                (by intro d' sc hv; injection hv with h1 h2; cases h2) h
          | some sc =>
              rw [show sysStep MCSLock.impl M t s =
                  { s with th := Function.update s.th t (.rel d (.signal sc)) } from by
                simp [sysStep, hth, MCSLock.impl, MCSLock.relStep, hnx]]
              refine mcs_pres_head_step s t (.rel d (.signal sc)) s.counter
                (by rw [hth]; rfl) rfl ?_ h
              intro d' sc' hv
              injection hv with h1 h2
              injection h2 with h3
              rw [← h3]
              exact hnx
      | casTail =>
          by_cases htail : s.g.tail = some t
          · by_cases hdM : d + 1 < M
            · rw [show sysStep MCSLock.impl M t s = { s with
                  g := { s.g with tail := none },
                  th := Function.update s.th t (.acq (d + 1) .start) } from by
                simp [sysStep, hth, MCSLock.impl, MCSLock.relStep, htail, hdM]]
              exact mcs_pres_cas_success s t d hth htail _ (Or.inl rfl) h
            · rw [show sysStep MCSLock.impl M t s = { s with
                  g := { s.g with tail := none },
                  th := Function.update s.th t .fin } from by
                simp [sysStep, hth, MCSLock.impl, MCSLock.relStep, htail, hdM]]
              exact mcs_pres_cas_success s t d hth htail _ (Or.inr rfl) h
          · rw [show sysStep MCSLock.impl M t s =
                { s with th := Function.update s.th t (.rel d .waitNext) } from by
              simp [sysStep, hth, MCSLock.impl, MCSLock.relStep, htail]]
            exact mcs_pres_head_step s t (.rel d .waitNext) s.counter
              (by rw [hth]; rfl) rfl
              (by intro d' sc hv; injection hv with h1 h2; cases h2) h
      | waitNext =>
          cases hnx : s.g.next t with
          | none =>
              have hupd : Function.update s.th t (ThreadSt.rel d MCSRel.waitNext) = s.th := by
                rw [← hth]
                exact Function.update_eq_self t s.th
              rw [show sysStep MCSLock.impl M t s = s from by
                simp [sysStep, hth, MCSLock.impl, MCSLock.relStep, hnx, hupd]
                rfl]
              exact h
          | some sc =>
              rw [show sysStep MCSLock.impl M t s =
                  { s with th := Function.update s.th t (.rel d (.signal sc)) } from by
                simp [sysStep, hth, MCSLock.impl, MCSLock.relStep, hnx]]
              refine mcs_pres_head_step s t (.rel d (.signal sc)) s.counter
                (by rw [hth]; rfl) rfl ?_ h
              intro d' sc' hv
              injection hv with h1 h2
              injection h2 with h3
              rw [← h3]
              exact hnx
      | signal sc =>
          by_cases hdM : d + 1 < M
          · rw [show sysStep MCSLock.impl M t s = { s with
                g := { s.g with nlocked := Function.update s.g.nlocked sc false },
                th := Function.update s.th t (.acq (d + 1) .start) } from by
              simp [sysStep, hth, MCSLock.impl, MCSLock.relStep, hdM]]
            exact mcs_pres_signal s t d sc hth _ (Or.inl rfl) h
          · rw [show sysStep MCSLock.impl M t s = { s with
                g := { s.g with nlocked := Function.update s.g.nlocked sc false },
                th := Function.update s.th t .fin } from by
              simp [sysStep, hth, MCSLock.impl, MCSLock.relStep, hdM]]
            exact mcs_pres_signal s t d sc hth _ (Or.inr rfl) h

/-! ### Claim theorems -/

/-- Claim C1: For every lock type (TASLock, TTASLock, MCSLock), at most one
thread is inside the critical section of a lock instance at a time, and
when N ≥ 1 threads each complete M ≥ 1 increments of the plain shared
counter strictly inside acquire/release, every interleaving that ends
with all threads finished leaves the counter at exactly N×M. -/
theorem c1_mutual_exclusion_counter (k : LockKind) (n M : Nat)
    (hn : 1 ≤ n) (hM : 1 ≤ M) (s : SysState (implOf k))
    (hr : SysReach (implOf k) n M s) :
    (∀ t₁ t₂, (s.th t₁).inCS = true → (s.th t₂).inCS = true → t₁ = t₂) ∧
    ((∀ t, t < n → s.th t = .fin) → s.counter = n * M) := by
  have hCS : ∀ (A R : Type) (st : ThreadSt A R), st.inCS = true → st.holding = true := by
    intro A R st hcs
    cases st with
    | load d => rfl
    | store d tmp => rfl
    | acq d a => simp [ThreadSt.inCS] at hcs
    | rel d r => rfl
    | fin => simp [ThreadSt.inCS] at hcs
  cases k with
  | tas =>
      have hres := sysInvariants TASLock.impl n M TASInv (TASInv_init n M)
        (fun t s h => TASInv_step M t s h) (fun s h => h.2) s hr
      exact ⟨fun t₁ t₂ h1 h2 => hres.1.2 t₁ t₂ (hCS _ _ _ h1) (hCS _ _ _ h2),
             fun hfin => final_counter TASLock.impl n M s hres.2 hfin⟩
  | ttas =>
      have hres := sysInvariants TTASLock.impl n M TTASInv (TTASInv_init n M)
        (fun t s h => TTASInv_step M t s h) (fun s h => h.2) s hr
      exact ⟨fun t₁ t₂ h1 h2 => hres.1.2 t₁ t₂ (hCS _ _ _ h1) (hCS _ _ _ h2),
             fun hfin => final_counter TTASLock.impl n M s hres.2 hfin⟩
  | mcs =>
      have hres := sysInvariants MCSLock.impl n M MCSInv (MCSInv_init n M)
        (fun t s h => MCSInv_step M t s h) (fun s h => MCSInv_mutex s h) s hr
      exact ⟨fun t₁ t₂ h1 h2 =>
               MCSInv_mutex s hres.1 t₁ t₂ (hCS _ _ _ h1) (hCS _ _ _ h2),
             fun hfin => final_counter MCSLock.impl n M s hres.2 hfin⟩

/-- Witness for C1: one TAS thread doing one increment; the four-step
interleaving ends finished with counter 1×1. -/
theorem c1_witness :
    (sysStep (implOf .tas) 1 0 (sysStep (implOf .tas) 1 0 (sysStep (implOf .tas) 1 0
      (sysStep (implOf .tas) 1 0 (sysInit (implOf .tas) 1 1))))).counter = 1 * 1 :=
  (c1_mutual_exclusion_counter .tas 1 1 (le_refl 1) (le_refl 1) _
    (.step 0 (.step 0 (.step 0 (.step 0 .init))))).2 (by
      intro t ht
      have ht0 : t = 0 := by omega
      subst ht0
      rfl)

/-- Claim C2 counterexample: at N = 0 the spec-modelled checked constructor
rejects, while the source constructor performs no validation and returns
an ordinary barrier with `count = 0` — construction with N ≤ 0 is not
detected as an error by the code. -/
theorem c2_counterexample :
    constructChecked 0 = none ∧
    SenseReversingBarrier.construct 0 = ⟨0, true, 0⟩ := by
  constructor
  · simp [constructChecked]
  · rfl

/-- Claim C2 (amended): construction performs no validation and detects no
error: for every N — including N ≤ 0 — it succeeds and initializes
`count` and `num_threads` to N and the shared `sense` to `true`, the
same value as every thread's initial local sense; only for positive N
does this agree with the spec's checked construction, and for N ≤ 0 the
spec-modelled construction rejects while the code does not. -/
theorem c2_construction_unvalidated (n : Int) :
    SenseReversingBarrier.construct n = ⟨n, true, n⟩ ∧
    (SenseReversingBarrier.construct n).sense = mySenseInit ∧
    (0 < n → constructChecked n = some (SenseReversingBarrier.construct n)) ∧
    (n ≤ 0 → constructChecked n = none) := by
  refine ⟨rfl, rfl, ?_, ?_⟩
  · intro h
    rw [constructChecked, if_neg (by omega)]
    rfl
  · intro h
    rw [constructChecked, if_pos h]

/-- Witness for C2's amended claim at N = 3 and N = 0. -/
theorem c2_witness :
    SenseReversingBarrier.construct 3 = ⟨3, true, 3⟩ ∧
    constructChecked 3 = some (SenseReversingBarrier.construct 3) ∧
    constructChecked 0 = none :=
  ⟨(c2_construction_unvalidated 3).1,
   (c2_construction_unvalidated 3).2.2.1 (by norm_num),
   (c2_construction_unvalidated 0).2.2.2 (by norm_num)⟩

/-- Claim C3: a single `wait()` call follows exactly the source's steps: it
captures the local sense, atomically decrements `count`; the last
arrival (pre-decrement 1) first resets `count` to `num_threads` and only
then stores the negated captured sense; a waiter that sees `sense`
already flipped returns with no poll iteration; a waiter that does not
stays polling with the exponential-backoff delay sequence; both branches
flip the thread's local sense before `done`. -/
theorem c3_wait_follows_steps (b : SenseReversingBarrier) (ms : Bool) :
    (b.count = 1 →
      waitStep^[5] ⟨b, ms, .start⟩ =
        ⟨⟨b.num_threads, !ms, b.num_threads⟩, !ms, .done⟩ ∧
      (waitStep^[3] ⟨b, ms, .start⟩).bar = ⟨b.num_threads, b.sense, b.num_threads⟩ ∧
      (waitStep^[4] ⟨b, ms, .start⟩).bar = ⟨b.num_threads, !ms, b.num_threads⟩) ∧
    (b.count ≠ 1 → b.sense ≠ ms →
      waitStep^[4] ⟨b, ms, .start⟩ =
        ⟨⟨b.count - 1, b.sense, b.num_threads⟩, !ms, .done⟩) ∧
    (b.count ≠ 1 → b.sense = ms →
      ∀ k, waitStep^[2 + k] ⟨b, ms, .start⟩ =
        ⟨⟨b.count - 1, b.sense, b.num_threads⟩, ms, .poll ms (barrierDelaySeq k)⟩) :=
  ⟨fun h => ⟨waitRun_last b ms h, (waitRun_last_mid b ms h).1, (waitRun_last_mid b ms h).2⟩,
   fun h1 h2 => waitRun_waiter b ms h1 h2,
   fun h1 h2 k => waitRun_blocked b ms h1 h2 k⟩

/-- Witness for C3: last arrival on a 4-thread barrier with one arrival
remaining. -/
theorem c3_witness :
    waitStep^[5] ⟨⟨1, true, 4⟩, true, .start⟩ = ⟨⟨4, false, 4⟩, false, .done⟩ :=
  ((c3_wait_follows_steps ⟨1, true, 4⟩ true).1 rfl).1

/-- Claim C4: from every state with `count = N` (N ≥ 1), exactly N arrival
steps return `count` to N and flip `sense` exactly once, and iterating
whole phases arbitrarily many times keeps the barrier reusable without
reconstruction, the sense alternating with phase parity. -/
theorem c4_barrier_reusable (N : Int) (hN : 1 ≤ N) (s : PhaseState)
    (hs : s.count = N) :
    ((arrive N)^[N.toNat] s = ⟨N, !s.sense⟩) ∧
    (∀ p : Nat, (arrive N)^[N.toNat * p] s =
      ⟨N, if p % 2 = 0 then s.sense else !s.sense⟩) :=
  ⟨arrive_phase N hN s hs, arrive_phases N hN s hs⟩

/-- Witness for C4: N = 2, one phase and three phases. -/
theorem c4_witness :
    (arrive 2)^[(2 : Int).toNat] ⟨2, true⟩ = ⟨2, false⟩ ∧
    (arrive 2)^[(2 : Int).toNat * 3] ⟨2, true⟩ = ⟨2, false⟩ := by
  have h := c4_barrier_reusable 2 (by norm_num) ⟨2, true⟩ rfl
  refine ⟨h.1, ?_⟩
  have h3 := h.2 3
  simpa using h3

/-- Claim C5: `MCSLock::unlock(node)`: when `node.next` is empty it attempts a
CAS of `tail` from the node to empty; on success the call completes with
`tail` empty and no `locked` flag written; on failure it re-reads
`node.next` until non-empty and then — and only then, like the
non-empty case — stores `false` into the successor's `locked` flag. -/
theorem c5_mcs_unlock_steps (t : Nat) (g : MCSState) :
    (g.next t = none → MCSLock.relStep t g .readNext = (g, some .casTail)) ∧
    (∀ sc, g.next t = some sc →
      MCSLock.relStep t g .readNext = (g, some (.signal sc))) ∧
    (g.tail = some t →
      MCSLock.relStep t g .casTail = ({ g with tail := none }, none) ∧
      ({ g with tail := none } : MCSState).nlocked = g.nlocked) ∧
    (g.tail ≠ some t → MCSLock.relStep t g .casTail = (g, some .waitNext)) ∧
    (g.next t = none → MCSLock.relStep t g .waitNext = (g, some .waitNext)) ∧
    (∀ sc, g.next t = some sc →
      MCSLock.relStep t g .waitNext = (g, some (.signal sc))) ∧
    (∀ sc, MCSLock.relStep t g (.signal sc) =
      ({ g with nlocked := Function.update g.nlocked sc false }, none)) ∧
    (∀ r g' o, MCSLock.relStep t g r = (g', o) → g'.nlocked ≠ g.nlocked →
      ∃ sc, r = .signal sc ∧ o = none) := by
  refine ⟨?_, ?_, ?_, ?_, ?_, ?_, ?_, ?_⟩
  · intro h
    simp [MCSLock.relStep, h]
  · intro sc h
    simp [MCSLock.relStep, h]
  · intro h
    constructor
    · simp [MCSLock.relStep, h]
    · rfl
  · intro h
    simp [MCSLock.relStep, h]
  · intro h
    simp [MCSLock.relStep, h]
  · intro sc h
    simp [MCSLock.relStep, h]
  · intro sc
    simp [MCSLock.relStep]
  · intro r g' o hstep hnl
    cases r with
    | readNext =>
        exfalso
        cases hnx : g.next t with
        | none => rw [MCSLock.relStep, hnx] at hstep; cases hstep; exact hnl rfl
        | some sc => rw [MCSLock.relStep, hnx] at hstep; cases hstep; exact hnl rfl
    | casTail =>
        exfalso
        by_cases htl : g.tail = some t
        · rw [MCSLock.relStep, if_pos htl] at hstep
          cases hstep
          exact hnl rfl
        · rw [MCSLock.relStep, if_neg htl] at hstep
          cases hstep
          exact hnl rfl
    | waitNext =>
        exfalso
        cases hnx : g.next t with
        | none => rw [MCSLock.relStep, hnx] at hstep; cases hstep; exact hnl rfl
        | some sc => rw [MCSLock.relStep, hnx] at hstep; cases hstep; exact hnl rfl
    | signal sc =>
        refine ⟨sc, rfl, ?_⟩
        rw [MCSLock.relStep] at hstep
        cases hstep
        rfl

/-- Witness for C5: unlock on a free-standing queue of one node — the
CAS succeeds, tail empties, no `locked` flag written. -/
theorem c5_witness :
    MCSLock.relStep 0 ⟨some 0, fun _ => none, fun _ => true, []⟩ .casTail =
      (⟨none, fun _ => none, fun _ => true, []⟩, none) := by
  have h := ((c5_mcs_unlock_steps 0 ⟨some 0, fun _ => none, fun _ => true, []⟩).2.2.1 rfl).1
  exact h

/-- Claim C6: `MCSLock::lock(node)` first initializes the caller's node
(`next = empty`, `locked = true`) before publication, then swaps `tail`
to the node capturing the previous tail; an empty predecessor means the
call completes immediately (no write to any other node, no spinning);
otherwise it links itself into `predecessor.next` and completes only
from the spin phase after observing its own `locked` flag false. -/
theorem c6_mcs_lock_steps (t : Nat) (g : MCSState) :
    (MCSLock.acqStep t g .start =
      ({ g with next := Function.update g.next t none,
                nlocked := Function.update g.nlocked t true }, some .swap)) ∧
    (g.tail = none →
      MCSLock.acqStep t g .swap =
        ({ g with tail := some t, log := g.log ++ [.swapEv t, .enterEv t] }, none)) ∧
    (∀ p, g.tail = some p →
      MCSLock.acqStep t g .swap =
        ({ g with tail := some t, log := g.log ++ [.swapEv t] }, some (.linkpred p))) ∧
    (∀ p, MCSLock.acqStep t g (.linkpred p) =
      ({ g with next := Function.update g.next p (some t) }, some .spin)) ∧
    (g.nlocked t = true → MCSLock.acqStep t g .spin = (g, some .spin)) ∧
    (g.nlocked t = false →
      MCSLock.acqStep t g .spin = ({ g with log := g.log ++ [.enterEv t] }, none)) := by
  refine ⟨rfl, ?_, ?_, ?_, ?_, ?_⟩
  · intro h
    simp [MCSLock.acqStep, h]
  · intro p h
    simp [MCSLock.acqStep, h]
  · intro p
    rfl
  · intro h
    simp [MCSLock.acqStep, h]
  · intro h
    simp [MCSLock.acqStep, h]

/-- Witness for C6: swapping into a free lock acquires immediately. -/
theorem c6_witness :
    MCSLock.acqStep 0 ⟨none, fun _ => none, fun _ => true, []⟩ .swap =
      (⟨some 0, fun _ => none, fun _ => true, [.swapEv 0, .enterEv 0]⟩, none) := by
  have h := (c6_mcs_lock_steps 0 ⟨none, fun _ => none, fun _ => true, []⟩).2.1 rfl
  simpa using h

/-- Claim C7: MCS grants the lock in strict FIFO order: in every reachable
state of every interleaving with any number of threads, the sequence of
critical-section entries recorded in the ghost log is a prefix of the
sequence of tail-swap (arrival) events — the k-th thread to enter is the
k-th to have swapped. -/
theorem c7_mcs_fifo (n M : Nat) (s : SysState MCSLock.impl)
    (hr : SysReach MCSLock.impl n M s) :
    ∃ waiting, swapsOf s.g.log = entersOf s.g.log ++ waiting ∧
      entersOf s.g.log = (swapsOf s.g.log).take (entersOf s.g.log).length := by
  have hres := sysInvariants MCSLock.impl n M MCSInv (MCSInv_init n M)
    (fun t s h => MCSInv_step M t s h) (fun s h => MCSInv_mutex s h) s hr
  obtain ⟨q, -, -, -, -, -, hlog⟩ := hres.1
  refine ⟨pendingOf s.th q, hlog, ?_⟩
  rw [hlog, List.take_left]

/-- Witness for C7: two threads, the first acquires, the second queues
behind it — the entry sequence is the matching prefix of the swap
sequence. -/
theorem c7_witness :
    entersOf ((sysStep MCSLock.impl 1 1 (sysStep MCSLock.impl 1 1
      (sysStep MCSLock.impl 1 0 (sysStep MCSLock.impl 1 0
        (sysInit MCSLock.impl 2 1))))).g.log) =
    (swapsOf ((sysStep MCSLock.impl 1 1 (sysStep MCSLock.impl 1 1
      (sysStep MCSLock.impl 1 0 (sysStep MCSLock.impl 1 0
        (sysInit MCSLock.impl 2 1))))).g.log)).take
      ((entersOf ((sysStep MCSLock.impl 1 1 (sysStep MCSLock.impl 1 1
        (sysStep MCSLock.impl 1 0 (sysStep MCSLock.impl 1 0
          (sysInit MCSLock.impl 2 1))))).g.log)).length) := by
  obtain ⟨waiting, h1, h2⟩ :=
    c7_mcs_fifo 2 1 _ (.step 1 (.step 1 (.step 0 (.step 0 .init))))
  exact h2

/-- Claim C8 counterexample: after 10 failures the TTAS-with-backoff delay is
1024 — it exceeds the claimed 1000 ceiling and differs from the
barrier's delay of 1000, so the two call sites do not compute the same
capped sequence. -/
theorem c8_counterexample :
    barrierDelaySeq 10 = 1000 ∧ ttasDelaySeq 10 = 1024 ∧
    ttasDelaySeq 10 ≠ barrierDelaySeq 10 ∧ 1000 < ttasDelaySeq 10 := by
  decide

/-- Claim C8 (amended): both backoffs start at delay 1 and double per failure,
but the barrier's delay is `min(2^k, 1000)` (capped at 1000) while the
TTAS-with-backoff delay is `min(2^k, 1024)` (capped at `MAX_DELAY =
1024`); each stays within its own cap and the two sequences agree
exactly up to the 9th failure. -/
theorem c8_backoff_sequences (k : Nat) :
    barrierDelaySeq k = min (2 ^ k) 1000 ∧
    ttasDelaySeq k = min (2 ^ k) 1024 ∧
    barrierDelaySeq k ≤ 1000 ∧ ttasDelaySeq k ≤ 1024 ∧
    (k ≤ 9 → barrierDelaySeq k = ttasDelaySeq k) := by
  refine ⟨barrierDelaySeq_eq k, ttasDelaySeq_eq k, ?_, ?_, ?_⟩
  · rw [barrierDelaySeq_eq]
    exact min_le_right _ _
  · rw [ttasDelaySeq_eq]
    exact min_le_right _ _
  · intro hk
    rw [barrierDelaySeq_eq, ttasDelaySeq_eq]
    have h1 : (2 : Nat) ^ k ≤ 2 ^ 9 := Nat.pow_le_pow_right (by norm_num) hk
    have h2 : (2 : Nat) ^ 9 = 512 := by norm_num
    omega

/-- Witness for C8's amended claim at k = 9 and k = 10. -/
theorem c8_witness :
    barrierDelaySeq 9 = ttasDelaySeq 9 ∧ ttasDelaySeq 10 = min (2 ^ 10) 1024 :=
  ⟨(c8_backoff_sequences 9).2.2.2.2 (by norm_num), (c8_backoff_sequences 10).2.1⟩

/-- Claim C9: the nullary simplified API is exactly the node-passing API
applied to the thread's single static `thread_local` node:
`acquire() = lock(threadLocalNode)` and `release() =
unlock(threadLocalNode)`; the node depends only on the thread, never on
the lock instance, so a thread that holds one lock through this API and
begins acquiring another re-initializes the very node still published as
the first lock's tail — it reuses an in-flight node. -/
theorem c9_simplified_api (t l₁ l₂ : Nat) (w : MCSWorld) :
    (∀ a, acquireStepW t l₁ w a = lockStepW (threadLocalNode t) l₁ w a) ∧
    (∀ r, releaseStepW t l₁ w r = unlockStepW (threadLocalNode t) l₁ w r) ∧
    threadLocalNode t = t ∧
    (w.tails l₁ = some (threadLocalNode t) →
      (acquireStepW t l₂ w .start).1.next (threadLocalNode t) = none ∧
      (acquireStepW t l₂ w .start).1.nlocked (threadLocalNode t) = true ∧
      (acquireStepW t l₂ w .start).1.tails l₁ = some (threadLocalNode t)) := by
  refine ⟨fun a => rfl, fun r => rfl, rfl, ?_⟩
  intro htl
  refine ⟨?_, ?_, ?_⟩
  · show Function.update w.next (threadLocalNode t) none (threadLocalNode t) = none
    exact Function.update_same _ _ _
  · show Function.update w.nlocked (threadLocalNode t) true (threadLocalNode t) = true
    exact Function.update_same _ _ _
  · exact htl

/-- Witness for C9: a world where thread 0's node is lock 0's tail and
thread 0 starts acquiring lock 1. -/
theorem c9_witness :
    (acquireStepW 0 1 ⟨fun _ => some 0, fun _ => none, fun _ => false⟩ .start).1.next
        (threadLocalNode 0) = none ∧
    (acquireStepW 0 1 ⟨fun _ => some 0, fun _ => none, fun _ => false⟩ .start).1.nlocked
        (threadLocalNode 0) = true :=
  ⟨((c9_simplified_api 0 0 1 ⟨fun _ => some 0, fun _ => none, fun _ => false⟩).2.2.2 rfl).1,
   ((c9_simplified_api 0 0 1 ⟨fun _ => some 0, fun _ => none, fun _ => false⟩).2.2.2 rfl).2.1⟩

/-- Claim C10: `my_sense` is one static `thread_local` boolean per thread,
initialized to `true` and shared by all barrier instances; constructing
a new barrier writes no thread's `my_sense`; consequently a thread whose
`my_sense` is `false` calling `wait()` on a freshly constructed barrier
(shared sense `true`) with pre-decrement count > 1 decrements and
returns from the waiter branch immediately — no poll iteration and no
further arrival — flipping its local sense back to `true`. -/
theorem c10_thread_local_sense (w : BarrierWorld) (t : Nat) (n : Int) :
    mySenseInit = true ∧
    (constructBarrierW w n).1 = w ∧
    (w.my_sense t = false → 1 < n →
      waitStep^[4] ⟨(constructBarrierW w n).2, w.my_sense t, .start⟩ =
        ⟨⟨n - 1, true, n⟩, true, .done⟩) := by
  refine ⟨rfl, rfl, ?_⟩
  intro hms hn
  rw [hms]
  have h := waitRun_waiter (SenseReversingBarrier.construct n) false
    (by show n ≠ 1; omega) (by show (true : Bool) ≠ false; simp)
  simpa using h

/-- Witness for C10: thread with stale local sense `false` on a fresh
2-party barrier. -/
theorem c10_witness :
    waitStep^[4] ⟨(constructBarrierW ⟨fun _ => false⟩ 2).2,
        (⟨fun _ => false⟩ : BarrierWorld).my_sense 0, .start⟩ =
      ⟨⟨1, true, 2⟩, true, .done⟩ := by
  have h := (c10_thread_local_sense ⟨fun _ => false⟩ 0 2).2.2 rfl (by norm_num)
  simpa using h
